import Mathlib

/-!
# Verification of the mutsig core against its specification

Shallow embedding of the `mutsig` sources (`src/signature.rs`, `src/genotype.rs`,
`src/result.rs`, `src/reference.rs`, `src/main.rs`) and proofs about them.

Rust `String` values over the nucleotide alphabet are modelled as `List Char`.
Rust panics (out-of-bounds indexing, `unwrap` on `None`/`Err`) are modelled by
`Option`-valued results (`none` = panic) where a claim depends on them; where a
panic provably cannot occur it is noted at the definition.
-/

namespace Mutsig

/-! ## signature.rs -/

/-- The nucleotide alphabet, in the order used by the source (`vec!['A','C','G','T']`). -/
def bases : List Char := ['A', 'C', 'G', 'T']

/-- `rev_comp_c` from signature.rs. The source panics on a non-ACGT character;
that case (never reached on the inputs of `build_signatures`) is modelled as the
identity. -/
def rev_comp_c (n : Char) : Char :=
  match n with
  | 'A' => 'T'
  | 'C' => 'G'
  | 'G' => 'C'
  | 'T' => 'A'
  | c => c

/-- `rev_comp` from signature.rs: reverse, then complement each character. -/
def rev_comp (s : List Char) : List Char := s.reverse.map rev_comp_c

/-- `Signature` from signature.rs: a codon (context string), the reference base at
its center and the alternative base. -/
structure Signature where
  codon : List Char
  reference : Char
  alternative : Char
deriving DecidableEq, Repr

/-- `Signature::is_forward_signature`. -/
def Signature.is_forward_signature (s : Signature) : Bool :=
  s.reference == 'C' || s.reference == 'T'

/-- Char comparison as done by Rust on string bytes (ASCII here). -/
def cmpChar (a b : Char) : Ordering :=
  if a < b then .lt else if a = b then .eq else .gt

/-- Lexicographic comparison of codons (Rust `String::cmp` on ASCII bytes). -/
def cmpCodon : List Char → List Char → Ordering
  | [], [] => .eq
  | [], _ :: _ => .lt
  | _ :: _, [] => .gt
  | a :: as, b :: bs =>
    match cmpChar a b with
    | .eq => cmpCodon as bs
    | o => o

/-- `impl Ord for Signature`: compare by codon, then by alternative.
The reference base does not participate. -/
def cmpSig (a b : Signature) : Ordering :=
  match cmpCodon a.codon b.codon with
  | .eq => cmpChar a.alternative b.alternative
  | o => o

/-- The `BTreeMap<Signature, usize>` of signature.rs, modelled as an association
list kept sorted by `cmpSig`. -/
abbrev SigMap := List (Signature × Nat)

/-- `BTreeMap::insert` on the sorted association list: on an equal key
(w.r.t. `cmpSig`) the stored key is retained and only the value is updated,
exactly as in Rust's `BTreeMap`. -/
def insertSig (m : SigMap) (k : Signature) (v : Nat) : SigMap :=
  match m with
  | [] => [(k, v)]
  | (k', v') :: rest =>
    match cmpSig k k' with
    | .lt => (k, v) :: (k', v') :: rest
    | .eq => (k', v) :: rest
    | .gt => (k', v') :: insertSig rest k v

/-- `BTreeMap::get`: find the value stored under a key equal w.r.t. `cmpSig`. -/
def lookupSig (m : SigMap) (k : Signature) : Option Nat :=
  match m with
  | [] => none
  | (k', v') :: rest =>
    match cmpSig k k' with
    | .eq => some v'
    | _ => lookupSig rest k

/-- One round of the flank-growing loop in `build_codons`: cross-product the
current codon set with each of the four bases (`for c in bases { for s in codons }`),
appending the base. -/
def expand (codons : List (List Char)) : List (List Char) :=
  bases.flatMap (fun c => codons.map (fun s => s ++ [c]))

/-- The `while prior >= 1` / `while after >= 1` loops of `build_codons`. -/
def growFlank : Nat → List (List Char) → List (List Char)
  | 0, cs => cs
  | n + 1, cs => growFlank n (expand cs)

/-- The center step of `build_codons`: append one reference nucleotide
(pyrimidines for the forward pass, purines for the reverse pass). -/
def centerStep (is_forward : Bool) (codons : List (List Char)) : List (List Char) :=
  (if is_forward then ['C', 'T'] else ['A', 'G']).flatMap
    (fun c => codons.map (fun s => s ++ [c]))

/-- `build_codons` from signature.rs. -/
def build_codons (is_forward : Bool) (prior after : Nat) : List (List Char) :=
  growFlank after (centerStep is_forward (growFlank prior [[]]))

/-- The forward pass of `build_signatures`: for each forward codon, insert a
signature for each of the three non-reference bases under a fresh sequential
index. -/
def fwdPassGo (w : Nat) : List (List Char) → SigMap → Nat → SigMap × Nat
  | [], m, idx => (m, idx)
  | cod :: rest, m, idx =>
    let cn := cod.getD w 'X'
    let step := bases.foldl
      (fun acc n =>
        if n ≠ cn then (insertSig acc.1 ⟨cod, cn, n⟩ acc.2, acc.2 + 1) else acc)
      (m, idx)
    fwdPassGo w rest step.1 step.2

/-- The reverse pass of `build_signatures`: for each reverse codon and each
non-reference base, look up the index of the reverse-complemented signature and
insert the purine-referenced signature under that index. The source calls
`.unwrap()` on the lookup; the never-reached `None` case is modelled with
`Option.getD 0` and lookup success is proved separately. -/
def revPassGo (w : Nat) : List (List Char) → SigMap → SigMap
  | [], m => m
  | cod :: rest, m =>
    let cn := cod.getD w 'X'
    let cod2 := rev_comp cod
    let m' := bases.foldl
      (fun m n =>
        if n ≠ cn then
          insertSig m ⟨cod, cn, n⟩ ((lookupSig m ⟨cod2, cn, rev_comp_c n⟩).getD 0)
        else m)
      m
    revPassGo w rest m'

/-- `build_signatures` from signature.rs. -/
def build_signatures (w : Nat) : SigMap :=
  let f := fwdPassGo w (build_codons true w w) [] 0
  revPassGo w (build_codons false w w) f.1

/-- `Signatures` from signature.rs. -/
structure Signatures where
  db : SigMap

/-- `Signatures::new`. -/
def Signatures.new (w : Nat) : Signatures := ⟨build_signatures w⟩

/-- `Signatures::index_of`. -/
def Signatures.index_of (s : Signatures) (sig : Signature) : Option Nat :=
  lookupSig s.db sig

/-- `Signatures::len`: the number of entries of the underlying `BTreeMap`. -/
def Signatures.len (s : Signatures) : Nat := s.db.length

/-- `Signatures::signatures`: all keys, in the map's (sorted) order. -/
def Signatures.signatures (s : Signatures) : List Signature :=
  s.db.map Prod.fst

/-- The reverse-complement of a whole signature as described by the spec:
context reverse-complemented, reference and alternative complemented. -/
def revCompSig (s : Signature) : Signature :=
  ⟨rev_comp s.codon, rev_comp_c s.reference, rev_comp_c s.alternative⟩

/-! ## genotype.rs -/

/-- `rust_htslib::bcf::record::GenotypeAllele` (the collaborator enum consumed by
genotype.rs): an allele index, phased or unphased, or a no-call marker. -/
inductive GenotypeAllele
  | unphased (i : Int)
  | phased (i : Int)
  | unphasedMissing
  | phasedMissing
deriving DecidableEq, Repr

/-- The per-allele conversion inside `impl From<..> for Genotype`:
`Unphased(i) | Phased(i) => Some(*i as u8)`, everything else `None`.
The Rust `i32 → u8` cast keeps the low byte, i.e. reduces modulo 256. -/
def allele_to_opt : GenotypeAllele → Option Nat
  | .unphased i => some ((i % 256).toNat)
  | .phased i => some ((i % 256).toNat)
  | .unphasedMissing => none
  | .phasedMissing => none

/-- Insertion step for sorting `Option` allele indices with Rust's
`Option` ordering (`None < Some _`). -/
def insertOpt (a : Option Nat) : List (Option Nat) → List (Option Nat)
  | [] => [a]
  | b :: bs =>
    match a, b with
    | none, _ => a :: b :: bs
    | some _, none => b :: insertOpt a bs
    | some x, some y => if x ≤ y then a :: b :: bs else b :: insertOpt a bs

/-- The `inner.sort()` call of genotype.rs. Sorting a list of ordered values
is algorithm-independent, so insertion sort models Rust's slice sort. -/
def sortOpts : List (Option Nat) → List (Option Nat)
  | [] => []
  | a :: as => insertOpt a (sortOpts as)

/-- `Genotype` from genotype.rs: sorted optional allele indices of one sample. -/
structure Genotype where
  inner : List (Option Nat)
deriving DecidableEq, Repr

/-- `impl From<rust_htslib::bcf::record::Genotype> for Genotype`:
convert each raw call, then sort. -/
def Genotype.fromRaw (gt : List GenotypeAllele) : Genotype :=
  ⟨sortOpts (gt.map allele_to_opt)⟩

/-- The positional loop of `impl PartialEq for Genotype` (run after the length
check): return `true` at the first position where either side is a no-call,
`false` at the first mismatching pair of present indices, `true` if the lists
are exhausted. -/
def gtEqLoop : List (Option Nat) → List (Option Nat) → Bool
  | none :: _, _ :: _ => true
  | _ :: _, none :: _ => true
  | some x :: as, some y :: bs => if x = y then gtEqLoop as bs else false
  | _, _ => true

/-- `impl PartialEq for Genotype`: different lengths are unequal, otherwise the
positional loop decides. -/
def Genotype.eq (g h : Genotype) : Bool :=
  if g.inner.length ≠ h.inner.length then false
  else gtEqLoop g.inner h.inner

/-- `Genotype::iter`: the present allele indices, in order (no-calls skipped). -/
def Genotype.iterList (g : Genotype) : List Nat :=
  g.inner.filterMap id

/-! ## result.rs -/

/-- `ResultMatrix` from result.rs. -/
structure ResultMatrix where
  n_samples : Nat
  inner : List Nat
deriving Repr

/-- `ResultMatrix::new`: `n_variants * n_samples` zero-initialized counters. -/
def ResultMatrix.new (n_variants n_samples : Nat) : ResultMatrix :=
  ⟨n_samples, List.replicate (n_variants * n_samples) 0⟩

/-- `ResultMatrix::index`: row-major flattening. No bounds check of its own. -/
def ResultMatrix.index (m : ResultMatrix) (vidx sidx : Nat) : Nat :=
  vidx * m.n_samples + sidx

/-- `ResultMatrix::increment`. `self.inner[idx] += 1` panics exactly when the
flattened index is outside the buffer; the panic is modelled as `none`. -/
def ResultMatrix.increment (m : ResultMatrix) (vidx sidx : Nat) : Option ResultMatrix :=
  let idx := m.index vidx sidx
  if idx < m.inner.length then
    some ⟨m.n_samples, m.inner.set idx (m.inner.getD idx 0 + 1)⟩
  else none

/-- `ResultMatrix::get`. `self.inner[..]` panics (modelled as `none`) exactly
when the flattened index is outside the buffer. -/
def ResultMatrix.get (m : ResultMatrix) (vidx sidx : Nat) : Option Nat :=
  m.inner[m.index vidx sidx]?

/-! ## reference.rs -/

/-- Outcome of `Reference::fetch`: a returned string, a returned error, or a
panic (`unwrap` of a failed collaborator fetch). The source attaches formatted
messages to its errors; the message text is elided here. -/
inductive FetchResult
  | ok (s : List Char)
  | err
  | panic
deriving DecidableEq, Repr

/-- `Reference` from reference.rs. The `faidx::Reader` collaborator is modelled
by the FASTA contents it indexes: an association of contig name to sequence. -/
structure Reference where
  seqs : List (String × List Char)
  window : Nat

/-- Modelled from the spec: `rust_htslib::faidx::Reader::fetch_seq_string`, the
collaborator called by `Reference::fetch`, is not part of src/. Its semantics —
the fetched range is clamped to the end of the sequence instead of failing, an
unknown contig or a start position past the end fails — is as documented by the
tests in src/reference.rs (`test_triplet_end_of_chromosome` expects
`fetch("1", 5) = Ok("GA")` on the 6-base contig `1`). -/
def fetch_seq_string (seqs : List (String × List Char)) (name : String)
    (start stop : Nat) : Option (List Char) :=
  match seqs.lookup name with
  | none => none
  | some seq =>
    if start < seq.length then
      some ((seq.drop start).take (min stop (seq.length - 1) + 1 - start))
    else none

/-- `Reference::fetch`: reject a window reaching before the sequence start, then
fetch `[position - window, position + window]` and uppercase it. The source
`unwrap`s the collaborator result; that panic is `FetchResult.panic`. -/
def Reference.fetch (r : Reference) (name : String) (position : Int) : FetchResult :=
  if (r.window : Int) > position then .err
  else
    match fetch_seq_string r.seqs name (position - r.window).toNat
        (position + r.window).toNat with
    | some s => .ok (s.map Char.toUpper)
    | none => .panic

/-- `Reference::window_size`. -/
def Reference.window_size (r : Reference) : Nat := r.window

/-! ## main.rs -/

/-- `AlleleRecordStatus` from main.rs. -/
inductive AlleleRecordStatus
  | err (msg : String)
  | issue (msg : String)
  | ignore (msg : String)
  | ok (sigs : List Signature)
deriving DecidableEq, Repr

/-- Whether a record classification outcome is the skip ("ignore") outcome. -/
def AlleleRecordStatus.isIgnore : AlleleRecordStatus → Bool
  | .ignore _ => true
  | _ => false

/-- A VCF record at the boundary used by `alternative_alleles_from_record`:
resolved template id, 0-based position and the allele strings (first entry the
reference allele). The source unwraps `record.rid()`; the id is modelled as
present. -/
structure VariantRecord where
  rid : Nat
  pos : Nat
  alleles : List (List Char)

/-- The `for a in allele_iter` loop of `alternative_alleles_from_record`: any
multi-base alternative allele aborts with `Ignore`; single-base alternatives
accumulate one `Signature` each, in record order. -/
def collectAlts (contig : String) (position : Nat) (codon : List Char)
    (reference_nucleotide : Char) :
    List (List Char) → List Signature → AlleleRecordStatus
  | [], acc =>
    if acc.length < 1 then
      .ignore ("Ignoring no-alternative variant at position " ++ contig ++ ":"
        ++ toString (position + 1))
    else .ok acc
  | a :: rest, acc =>
    if a.length ≠ 1 then
      .ignore ("Ignoring non-SNV variant at position " ++ contig ++ ":"
        ++ toString (position + 1))
    else
      collectAlts contig position codon reference_nucleotide rest
        (acc ++ [⟨codon, reference_nucleotide, (a.getD 0 ' ').toUpper⟩])

/-- `alternative_alleles_from_record` from main.rs. `none` models the panics of
the source (`unwrap` on an empty allele list, indexing an empty reference allele
or a codon shorter than `window + 1`). -/
def alternative_alleles_from_record (record : VariantRecord)
    (contigs : List (Nat × String)) (reference : Reference) :
    Option AlleleRecordStatus :=
  match contigs.lookup record.rid with
  | none =>
    some (.err ("Can not find contig name for template-id " ++ toString record.rid))
  | some contig =>
    let position := record.pos
    match record.alleles with
    | [] => none
    | refAllele :: rest =>
      let reference_allele := refAllele.map Char.toUpper
      if reference_allele.length > 1 then
        some (.ignore ("Ignoring non-SNV variant at position " ++ contig ++ ":"
          ++ toString (position + 1)))
      else
        match reference_allele with
        | [] => none
        | reference_nucleotide :: _ =>
          match reference.fetch contig (position : Int) with
          | .err =>
            some (.err ("Can not fetch codon at position " ++ contig ++ ":"
              ++ toString position))
          | .panic => none
          | .ok codon =>
            if codon.any (fun c => c != 'A' && c != 'C' && c != 'G' && c != 'T') then
              some (.ignore ("Ignoring codon with non-standard nucleotide at position "
                ++ contig ++ ":" ++ toString (position + 1)))
            else
              match codon[reference.window_size]? with
              | none => none
              | some center =>
                if center ≠ reference_nucleotide then
                  some (.issue ("Loaded codon does not match to expected reference allele"))
                else
                  some (collectAlts contig position codon reference_nucleotide rest [])

/-- `is_varying_position` from main.rs: compare every genotype from index 1 on
against the genotype at index 0; `true` as soon as one is unequal. -/
def is_varying_position (gts : List Genotype) : Bool :=
  match gts with
  | [] => false
  | g0 :: rest => rest.any (fun g => !(Genotype.eq g0 g))

/-! ## Ordering lemmas for the signature comparison -/

theorem cmpChar_eq_iff {a b : Char} : cmpChar a b = .eq ↔ a = b := by
  unfold cmpChar
  split_ifs with h1 h2
  · simp [h1.ne]
  · simp [h2]
  · simp [h2]

theorem cmpChar_lt_iff {a b : Char} : cmpChar a b = .lt ↔ a < b := by
  unfold cmpChar
  split_ifs with h1 h2
  · simp [h1]
  · simp [h2]
  · simp [h1]

theorem cmpChar_gt_iff {a b : Char} : cmpChar a b = .gt ↔ b < a := by
  unfold cmpChar
  split_ifs with h1 h2
  · simp [lt_asymm h1]
  · simp [h2, lt_irrefl]
  · simp only [true_iff]
    exact ((lt_trichotomy a b).resolve_left h1).resolve_left h2

theorem cmpCodon_eq_iff : ∀ {a b : List Char}, cmpCodon a b = .eq ↔ a = b
  | [], [] => by simp [cmpCodon]
  | [], _ :: _ => by simp [cmpCodon]
  | _ :: _, [] => by simp [cmpCodon]
  | x :: as, y :: bs => by
    simp only [cmpCodon]
    rcases hxy : cmpChar x y with _ | _ | _
    · simp [(cmpChar_lt_iff.mp hxy).ne]
    · simp [cmpChar_eq_iff.mp hxy, @cmpCodon_eq_iff as bs]
    · simp [(cmpChar_gt_iff.mp hxy).ne']

theorem cmpCodon_gt_iff : ∀ {a b : List Char}, cmpCodon a b = .gt ↔ cmpCodon b a = .lt
  | [], [] => by simp [cmpCodon]
  | [], _ :: _ => by simp [cmpCodon]
  | _ :: _, [] => by simp [cmpCodon]
  | x :: as, y :: bs => by
    simp only [cmpCodon]
    rcases hxy : cmpChar x y with _ | _ | _
    · rw [cmpChar_gt_iff.mpr (cmpChar_lt_iff.mp hxy)]
      simp
    · have hyx : cmpChar y x = .eq := cmpChar_eq_iff.mpr (cmpChar_eq_iff.mp hxy).symm
      rw [hyx]
      exact @cmpCodon_gt_iff as bs
    · rw [cmpChar_lt_iff.mpr (cmpChar_gt_iff.mp hxy)]
      simp

theorem cmpCodon_lt_trans : ∀ {a b c : List Char},
    cmpCodon a b = .lt → cmpCodon b c = .lt → cmpCodon a c = .lt := by
  intro a
  induction a with
  | nil =>
    intro b c h1 h2
    cases b with
    | nil => simp [cmpCodon] at h1
    | cons y bs =>
      cases c with
      | nil => simp [cmpCodon] at h2
      | cons z cs => simp [cmpCodon]
  | cons x as ih =>
    intro b c h1 h2
    cases b with
    | nil => simp [cmpCodon] at h1
    | cons y bs =>
      cases c with
      | nil => simp [cmpCodon] at h2
      | cons z cs =>
        simp only [cmpCodon] at h1 h2 ⊢
        rcases hxy : cmpChar x y with _ | _ | _ <;> rw [hxy] at h1 <;>
          rcases hyz : cmpChar y z with _ | _ | _ <;> rw [hyz] at h2 <;>
          try simp_all
        · have : cmpChar x z = .lt :=
            cmpChar_lt_iff.mpr (lt_trans (cmpChar_lt_iff.mp hxy) (cmpChar_lt_iff.mp hyz))
          rw [this]
        · have : cmpChar x z = .lt := by
            rw [← cmpChar_eq_iff.mp hyz]
            exact hxy
          rw [this]
        · have : cmpChar x z = .lt := by
            rw [cmpChar_eq_iff.mp hxy]
            exact hyz
          rw [this]
        · have : cmpChar x z = .eq := by
            rw [cmpChar_eq_iff.mp hxy]
            exact hyz
          rw [this]
          exact ih h1 h2

/-- Signatures are compared (hence keyed in the `BTreeMap`) by codon and
alternative only; the reference base does not participate. -/
def keyEq (a b : Signature) : Prop :=
  a.codon = b.codon ∧ a.alternative = b.alternative

instance : ∀ a b, Decidable (keyEq a b) := fun a b => by
  unfold keyEq
  infer_instance

theorem cmpSig_eq_iff {a b : Signature} : cmpSig a b = .eq ↔ keyEq a b := by
  unfold cmpSig keyEq
  rcases hc : cmpCodon a.codon b.codon with _ | _ | _
  · constructor
    · intro h
      cases h
    · rintro ⟨h, -⟩
      rw [h, cmpCodon_eq_iff.mpr rfl] at hc
      cases hc
  · simp only [cmpCodon_eq_iff.mp hc, true_and]
    exact cmpChar_eq_iff
  · constructor
    · intro h
      cases h
    · rintro ⟨h, -⟩
      rw [h, cmpCodon_eq_iff.mpr rfl] at hc
      cases hc

theorem keyEq_refl (a : Signature) : keyEq a a := ⟨rfl, rfl⟩

theorem keyEq_symm {a b : Signature} (h : keyEq a b) : keyEq b a :=
  ⟨h.1.symm, h.2.symm⟩

theorem keyEq_trans {a b c : Signature} (h1 : keyEq a b) (h2 : keyEq b c) : keyEq a c :=
  ⟨h1.1.trans h2.1, h1.2.trans h2.2⟩

theorem cmpSig_gt_iff {a b : Signature} : cmpSig a b = .gt ↔ cmpSig b a = .lt := by
  unfold cmpSig
  rcases hc : cmpCodon a.codon b.codon with _ | _ | _
  · rw [cmpCodon_gt_iff.mpr hc]
    simp
  · have hcb : cmpCodon b.codon a.codon = .eq :=
      cmpCodon_eq_iff.mpr (cmpCodon_eq_iff.mp hc).symm
    rw [hcb]
    constructor
    · intro h
      exact cmpChar_lt_iff.mpr (cmpChar_gt_iff.mp h)
    · intro h
      exact cmpChar_gt_iff.mpr (cmpChar_lt_iff.mp h)
  · rw [cmpCodon_gt_iff.mp hc]
    simp

theorem cmpSig_lt_trans {a b c : Signature}
    (h1 : cmpSig a b = .lt) (h2 : cmpSig b c = .lt) : cmpSig a c = .lt := by
  unfold cmpSig at h1 h2 ⊢
  rcases hab : cmpCodon a.codon b.codon with _ | _ | _ <;> rw [hab] at h1 <;>
    rcases hbc : cmpCodon b.codon c.codon with _ | _ | _ <;> rw [hbc] at h2 <;>
    try simp_all
  · rw [cmpCodon_lt_trans hab hbc]
  · have : cmpCodon a.codon c.codon = .lt := by
      rw [← cmpCodon_eq_iff.mp hbc]
      exact hab
    rw [this]
  · have : cmpCodon a.codon c.codon = .lt := by
      rw [cmpCodon_eq_iff.mp hab]
      exact hbc
    rw [this]
  · have : cmpCodon a.codon c.codon = .eq := by
      rw [cmpCodon_eq_iff.mp hab]
      exact hbc
    rw [this]
    exact cmpChar_lt_iff.mpr (lt_trans (cmpChar_lt_iff.mp h1) (cmpChar_lt_iff.mp h2))

theorem cmpSig_lt_ne_eq {a b : Signature} (h : cmpSig a b = .lt) : ¬ keyEq a b := by
  intro hk
  rw [cmpSig_eq_iff.mpr hk] at h
  cases h

theorem cmpSig_eq_of_keyEq_left {a a' b : Signature} (h : keyEq a a') :
    cmpSig a b = cmpSig a' b := by
  unfold cmpSig
  rw [h.1, h.2]

/-! ## Map lemmas: `insertSig` / `lookupSig` on the sorted association list -/

theorem lookupSig_respects_keyEq (m : SigMap) {k k' : Signature} (h : keyEq k k') :
    lookupSig m k = lookupSig m k' := by
  induction m with
  | nil => rfl
  | cons p rest ih =>
    simp only [lookupSig]
    rw [cmpSig_eq_of_keyEq_left h]
    rcases cmpSig k' p.1 with _ | _ | _ <;> simp [ih]

theorem lookupSig_cons (a : Signature) (b : Nat) (m : SigMap) (k : Signature) :
    lookupSig ((a, b) :: m) k = if keyEq k a then some b else lookupSig m k := by
  simp only [lookupSig]
  rcases h : cmpSig k a with _ | _ | _
  · rw [if_neg fun hk => by rw [cmpSig_eq_iff.mpr hk] at h; cases h]
  · rw [if_pos (cmpSig_eq_iff.mp h)]
  · rw [if_neg fun hk => by rw [cmpSig_eq_iff.mpr hk] at h; cases h]

theorem lookupSig_insertSig (m : SigMap) (k k' : Signature) (v : Nat) :
    lookupSig (insertSig m k v) k' =
      if keyEq k' k then some v else lookupSig m k' := by
  induction m with
  | nil =>
    simp only [insertSig]
    rw [lookupSig_cons]
  | cons p rest ih =>
    obtain ⟨k0, v0⟩ := p
    simp only [insertSig]
    rcases hik : cmpSig k k0 with _ | _ | _
    · rw [lookupSig_cons, lookupSig_cons]
    · have hkk0 : keyEq k k0 := cmpSig_eq_iff.mp hik
      rw [lookupSig_cons, lookupSig_cons]
      by_cases h0 : keyEq k' k0
      · rw [if_pos h0, if_pos (keyEq_trans h0 (keyEq_symm hkk0))]
      · rw [if_neg h0, if_neg fun h => h0 (keyEq_trans h hkk0), if_neg h0]
    · rw [lookupSig_cons, lookupSig_cons, ih]
      by_cases h0 : keyEq k' k0
      · have hnk : ¬ keyEq k' k := by
          intro h
          have : cmpSig k k0 = .eq :=
            cmpSig_eq_iff.mpr (keyEq_trans (keyEq_symm h) h0)
          rw [this] at hik
          cases hik
        rw [if_pos h0, if_neg hnk, if_pos h0]
      · rw [if_neg h0]
        by_cases hk : keyEq k' k
        · rw [if_pos hk, if_pos hk]
        · rw [if_neg hk, if_neg hk, if_neg h0]

/-- The invariant of the `BTreeMap` model: entries strictly sorted by `cmpSig`. -/
def SortedMap (m : SigMap) : Prop :=
  m.Pairwise (fun a b => cmpSig a.1 b.1 = .lt)

theorem fst_mem_insertSig {m : SigMap} {k : Signature} {v : Nat} :
    ∀ p ∈ insertSig m k v, p.1 = k ∨ p.1 ∈ m.map Prod.fst := by
  induction m with
  | nil =>
    intro p hp
    simp only [insertSig, List.mem_singleton] at hp
    exact Or.inl (by rw [hp])
  | cons q rest ih =>
    obtain ⟨k0, v0⟩ := q
    intro p hp
    simp only [insertSig] at hp
    rcases hik : cmpSig k k0 with _ | _ | _ <;> rw [hik] at hp
    · rcases List.mem_cons.mp hp with h | h
      · exact Or.inl (by rw [h])
      · exact Or.inr (List.mem_map_of_mem Prod.fst h)
    · rcases List.mem_cons.mp hp with h | h
      · refine Or.inr ?_
        rw [h]
        exact List.mem_map.mpr ⟨(k0, v0), List.mem_cons_self _ _, rfl⟩
      · exact Or.inr (List.mem_map_of_mem Prod.fst (List.mem_cons_of_mem _ h))
    · rcases List.mem_cons.mp hp with h | h
      · refine Or.inr ?_
        rw [h]
        exact List.mem_map_of_mem Prod.fst (List.mem_cons_self _ _)
      · rcases ih p h with h' | h'
        · exact Or.inl h'
        · refine Or.inr ?_
          rw [List.map_cons]
          exact List.mem_cons_of_mem _ h'

theorem sortedMap_insertSig {m : SigMap} {k : Signature} {v : Nat}
    (h : SortedMap m) : SortedMap (insertSig m k v) := by
  induction m with
  | nil => simp [insertSig, SortedMap]
  | cons q rest ih =>
    obtain ⟨k0, v0⟩ := q
    rw [SortedMap, List.pairwise_cons] at h
    obtain ⟨h1, h2⟩ := h
    simp only [insertSig]
    rcases hik : cmpSig k k0 with _ | _ | _
    · rw [SortedMap, List.pairwise_cons]
      refine ⟨?_, List.Pairwise.cons h1 h2⟩
      intro p hp
      rcases List.mem_cons.mp hp with h | h
      · rw [h]
        exact hik
      · exact cmpSig_lt_trans hik (h1 p h)
    · rw [SortedMap, List.pairwise_cons]
      exact ⟨h1, h2⟩
    · rw [SortedMap, List.pairwise_cons]
      refine ⟨?_, ih h2⟩
      intro p hp
      rcases fst_mem_insertSig p hp with h | h
      · rw [h]
        exact cmpSig_gt_iff.mp hik
      · obtain ⟨q, hq, hq'⟩ := List.mem_map.mp h
        rw [← hq']
        exact h1 q hq

theorem insertSig_perm_of_fresh {m : SigMap} {k : Signature} {v : Nat}
    (h : lookupSig m k = none) : (insertSig m k v).Perm ((k, v) :: m) := by
  induction m with
  | nil => simp [insertSig]
  | cons q rest ih =>
    obtain ⟨k0, v0⟩ := q
    simp only [lookupSig] at h
    rcases hik : cmpSig k k0 with _ | _ | _ <;> rw [hik] at h
    · simp [insertSig, hik]
    · cases h
    · simp only [insertSig, hik]
      exact ((ih h).cons _).trans (List.Perm.swap _ _ _)

/-- Building the map by a sequence of inserts (the shape of both passes of
`build_signatures`). -/
def insertAll (m : SigMap) (l : List (Signature × Nat)) : SigMap :=
  l.foldl (fun m p => insertSig m p.1 p.2) m

theorem insertAll_nil (m : SigMap) : insertAll m [] = m := rfl

theorem insertAll_cons (m : SigMap) (p : Signature × Nat) (l : List (Signature × Nat)) :
    insertAll m (p :: l) = insertAll (insertSig m p.1 p.2) l := rfl

theorem insertAll_append (m : SigMap) (l1 l2 : List (Signature × Nat)) :
    insertAll m (l1 ++ l2) = insertAll (insertAll m l1) l2 := by
  simp [insertAll, List.foldl_append]

theorem sortedMap_insertAll {m : SigMap} (l : List (Signature × Nat))
    (h : SortedMap m) : SortedMap (insertAll m l) := by
  induction l generalizing m with
  | nil => exact h
  | cons p rest ih => exact ih (sortedMap_insertSig h)

/-- Value lookup in a plain (unsorted) event list, by the map's key equality. -/
def findVal : List (Signature × Nat) → Signature → Option Nat
  | [], _ => none
  | p :: rest, k => if keyEq k p.1 then some p.2 else findVal rest k

theorem findVal_eq_none {l : List (Signature × Nat)} {k : Signature}
    (h : ∀ q ∈ l, ¬ keyEq k q.1) : findVal l k = none := by
  induction l with
  | nil => rfl
  | cons p rest ih =>
    simp only [findVal, if_neg (h p (List.mem_cons_self p rest))]
    exact ih fun q hq => h q (List.mem_cons_of_mem p hq)

theorem findVal_of_mem {l : List (Signature × Nat)} {k : Signature} {v : Nat}
    (hnd : l.Pairwise (fun p q => ¬ keyEq p.1 q.1)) (h : (k, v) ∈ l) :
    findVal l k = some v := by
  induction l with
  | nil => cases h
  | cons p rest ih =>
    rw [List.pairwise_cons] at hnd
    rcases List.mem_cons.mp h with h' | h'
    · rw [← h']
      simp [findVal, keyEq_refl]
    · have hne : ¬ keyEq k p.1 := by
        intro hk
        exact hnd.1 (k, v) h' (keyEq_symm hk)
      simp only [findVal, if_neg hne]
      exact ih hnd.2 h'

theorem insertAll_perm {m : SigMap} {l : List (Signature × Nat)}
    (h1 : ∀ p ∈ l, lookupSig m p.1 = none)
    (h2 : l.Pairwise (fun p q => ¬ keyEq p.1 q.1)) :
    (insertAll m l).Perm (l ++ m) := by
  induction l generalizing m with
  | nil => simp [insertAll]
  | cons p rest ih =>
    rw [List.pairwise_cons] at h2
    rw [insertAll_cons]
    have hfresh : ∀ q ∈ rest, lookupSig (insertSig m p.1 p.2) q.1 = none := by
      intro q hq
      rw [lookupSig_insertSig]
      rw [if_neg (fun hk => h2.1 q hq (keyEq_symm hk))]
      exact h1 q (List.mem_cons_of_mem p hq)
    have step := ih hfresh h2.2
    refine step.trans ?_
    refine (List.Perm.append_left rest
      (insertSig_perm_of_fresh (h1 p (List.mem_cons_self p rest)))).trans ?_
    exact List.perm_middle

theorem lookupSig_insertAll {m : SigMap} {l : List (Signature × Nat)}
    (h1 : ∀ p ∈ l, lookupSig m p.1 = none)
    (h2 : l.Pairwise (fun p q => ¬ keyEq p.1 q.1)) (k : Signature) :
    lookupSig (insertAll m l) k =
      match findVal l k with
      | some v => some v
      | none => lookupSig m k := by
  induction l generalizing m with
  | nil => simp [insertAll, findVal]
  | cons p rest ih =>
    rw [List.pairwise_cons] at h2
    rw [insertAll_cons]
    have hfresh : ∀ q ∈ rest, lookupSig (insertSig m p.1 p.2) q.1 = none := by
      intro q hq
      rw [lookupSig_insertSig]
      rw [if_neg (fun hk => h2.1 q hq (keyEq_symm hk))]
      exact h1 q (List.mem_cons_of_mem p hq)
    rw [ih hfresh h2.2]
    simp only [findVal]
    by_cases hk : keyEq k p.1
    · rw [if_pos hk]
      have : findVal rest k = none :=
        findVal_eq_none fun q hq hkq => h2.1 q hq (keyEq_trans (keyEq_symm hk) hkq)
      rw [this, lookupSig_insertSig, if_pos hk]
    · rw [if_neg hk]
      rcases hfv : findVal rest k with _ | v
      · rw [lookupSig_insertSig, if_neg hk]
      · rfl

/-! ## Codon generation lemmas -/

theorem length_expand (cs : List (List Char)) : (expand cs).length = 4 * cs.length := by
  simp only [expand, bases, List.length_flatMap, List.map_cons, List.map_nil,
    Function.comp_apply, List.length_map, List.sum_cons, List.sum_nil]
  omega

theorem length_growFlank (n : Nat) (cs : List (List Char)) :
    (growFlank n cs).length = 4 ^ n * cs.length := by
  induction n generalizing cs with
  | zero => simp [growFlank]
  | succ n ih =>
    rw [growFlank, ih, length_expand, pow_succ]
    ring

theorem length_centerStep (f : Bool) (cs : List (List Char)) :
    (centerStep f cs).length = 2 * cs.length := by
  cases f <;> simp [centerStep, List.length_flatMap] <;> omega

theorem length_build_codons (f : Bool) (p a : Nat) :
    (build_codons f p a).length = 2 * 4 ^ (p + a) := by
  rw [build_codons, length_growFlank, length_centerStep, length_growFlank]
  simp [pow_add]
  ring

theorem mem_expand {s : List Char} {cs : List (List Char)} :
    s ∈ expand cs ↔ ∃ s0 ∈ cs, ∃ c ∈ bases, s = s0 ++ [c] := by
  simp only [expand, List.mem_flatMap, List.mem_map]
  constructor
  · rintro ⟨c, hc, s0, hs0, rfl⟩
    exact ⟨s0, hs0, c, hc, rfl⟩
  · rintro ⟨s0, hs0, c, hc, rfl⟩
    exact ⟨c, hc, s0, hs0, rfl⟩

theorem mem_centerStep {s : List Char} {f : Bool} {cs : List (List Char)} :
    s ∈ centerStep f cs ↔
      ∃ s0 ∈ cs, ∃ c ∈ (if f then ['C', 'T'] else ['A', 'G']), s = s0 ++ [c] := by
  simp only [centerStep, List.mem_flatMap, List.mem_map]
  constructor
  · rintro ⟨c, hc, s0, hs0, rfl⟩
    exact ⟨s0, hs0, c, hc, rfl⟩
  · rintro ⟨s0, hs0, c, hc, rfl⟩
    exact ⟨c, hc, s0, hs0, rfl⟩

theorem mem_growFlank {n : Nat} {cs : List (List Char)} {s : List Char} :
    s ∈ growFlank n cs ↔
      ∃ s0 ∈ cs, ∃ t, t.length = n ∧ (∀ c ∈ t, c ∈ bases) ∧ s = s0 ++ t := by
  induction n generalizing cs s with
  | zero =>
    simp only [growFlank]
    constructor
    · intro h
      exact ⟨s, h, [], rfl, by simp, by simp⟩
    · rintro ⟨s0, hs0, t, ht, -, rfl⟩
      rw [List.length_eq_zero.mp ht]
      simpa using hs0
  | succ n ih =>
    rw [growFlank, ih]
    constructor
    · rintro ⟨s1, hs1, t, ht, htb, rfl⟩
      obtain ⟨s0, hs0, c, hc, rfl⟩ := mem_expand.mp hs1
      refine ⟨s0, hs0, c :: t, by simp [ht], ?_, by simp⟩
      intro b hb
      rcases List.mem_cons.mp hb with h | h
      · rw [h]
        exact hc
      · exact htb b h
    · rintro ⟨s0, hs0, t, ht, htb, rfl⟩
      cases t with
      | nil => simp at ht
      | cons c t' =>
        refine ⟨s0 ++ [c], mem_expand.mpr ⟨s0, hs0, c, htb c (List.mem_cons_self _ _), rfl⟩,
          t', by simpa using ht, fun b hb => htb b (List.mem_cons_of_mem _ hb), by simp⟩

theorem mem_build_codons {f : Bool} {p a : Nat} {cod : List Char} :
    cod ∈ build_codons f p a ↔
      ∃ x c y, x.length = p ∧ y.length = a ∧ (∀ b ∈ x, b ∈ bases) ∧
        (∀ b ∈ y, b ∈ bases) ∧ c ∈ (if f then ['C', 'T'] else ['A', 'G']) ∧
        cod = x ++ c :: y := by
  rw [build_codons, mem_growFlank]
  constructor
  · rintro ⟨s1, hs1, y, hy, hyb, rfl⟩
    obtain ⟨s0, hs0, c, hc, rfl⟩ := mem_centerStep.mp hs1
    obtain ⟨e, he, x, hx, hxb, rfl⟩ := mem_growFlank.mp hs0
    rcases List.mem_singleton.mp he with rfl
    exact ⟨x, c, y, by simpa using hx, hy, hxb, hyb, hc, by simp⟩
  · rintro ⟨x, c, y, hx, hy, hxb, hyb, hc, rfl⟩
    refine ⟨x ++ [c], mem_centerStep.mpr ⟨x, ?_, c, hc, rfl⟩, y, hy, hyb, by simp⟩
    rw [mem_growFlank]
    exact ⟨[], List.mem_singleton_self _, x, hx, hxb, by simp⟩

theorem getD_append_center :
    ∀ (x : List Char) (c : Char) (y : List Char) (d : Char),
      (x ++ c :: y).getD x.length d = c := by
  intro x
  induction x with
  | nil => simp
  | cons a x ih =>
    intro c y d
    simpa using ih c y d

theorem append_single_inj {a b : List Char} {c d : Char}
    (h : a ++ [c] = b ++ [d]) : a = b ∧ c = d := by
  obtain ⟨h1, h2⟩ := List.append_inj' h (by simp)
  exact ⟨h1, by simpa using h2⟩

theorem nodup_flatMap_append (chars : List Char) (cs : List (List Char))
    (h1 : chars.Nodup) (h2 : cs.Nodup) :
    (chars.flatMap fun c => cs.map (fun s => s ++ [c])).Nodup := by
  rw [List.nodup_flatMap]
  constructor
  · intro c _
    have hinj : Function.Injective (fun s : List Char => s ++ [c]) := by
      intro s1 s2 h
      exact (append_single_inj h).1
    exact h2.map hinj
  · refine h1.imp ?_
    intro c c' hne
    intro s hs hs'
    obtain ⟨s1, -, rfl⟩ := List.mem_map.mp hs
    obtain ⟨s2, -, h⟩ := List.mem_map.mp hs'
    exact hne ((append_single_inj h).2.symm)

theorem nodup_expand {cs : List (List Char)} (h : cs.Nodup) : (expand cs).Nodup :=
  nodup_flatMap_append bases cs (by decide) h

theorem nodup_centerStep {f : Bool} {cs : List (List Char)} (h : cs.Nodup) :
    (centerStep f cs).Nodup := by
  cases f <;> exact nodup_flatMap_append _ cs (by decide) h

theorem nodup_growFlank {n : Nat} {cs : List (List Char)} (h : cs.Nodup) :
    (growFlank n cs).Nodup := by
  induction n generalizing cs with
  | zero => exact h
  | succ n ih => exact ih (nodup_expand h)

theorem nodup_build_codons (f : Bool) (p a : Nat) : (build_codons f p a).Nodup :=
  nodup_growFlank (nodup_centerStep (nodup_growFlank (by simp)))

/-! ## Reverse complement lemmas -/

theorem rev_comp_c_base : ∀ c ∈ bases, rev_comp_c c ∈ bases := by
  intro c hc
  fin_cases hc <;> decide

theorem rev_comp_c_invol : ∀ c ∈ bases, rev_comp_c (rev_comp_c c) = c := by
  intro c hc
  fin_cases hc <;> decide

theorem length_rev_comp (s : List Char) : (rev_comp s).length = s.length := by
  simp [rev_comp]

theorem rev_comp_append_center (x : List Char) (c : Char) (y : List Char) :
    rev_comp (x ++ c :: y) =
      (y.reverse.map rev_comp_c) ++ rev_comp_c c :: (x.reverse.map rev_comp_c) := by
  simp [rev_comp]

/-- The center of a codon (the character at offset `w`), as read by
`build_signatures` via `cod.as_bytes()[window]`. -/
theorem center_of_mem_build_codons {f : Bool} {w : Nat} {cod : List Char}
    (h : cod ∈ build_codons f w w) :
    cod.getD w 'X' ∈ (if f then ['C', 'T'] else ['A', 'G']) ∧
      cod.length = 2 * w + 1 ∧ (∀ b ∈ cod, b ∈ bases) := by
  obtain ⟨x, c, y, hx, hy, hxb, hyb, hc, rfl⟩ := mem_build_codons.mp h
  refine ⟨?_, by simp [hx, hy]; omega, ?_⟩
  · rw [← hx, getD_append_center]
    exact hc
  · intro b hb
    rcases List.mem_append.mp hb with h' | h'
    · exact hxb b h'
    · rcases List.mem_cons.mp h' with h'' | h''
      · rw [h'']
        cases f
        · simp only [if_neg Bool.false_ne_true] at hc
          fin_cases hc <;> decide
        · simp only [if_pos rfl] at hc
          fin_cases hc <;> decide
      · exact hyb b h''

/-- The reverse complement of a reverse-pass codon is a forward-pass codon,
and its center is the complement of the original center. -/
theorem rev_comp_mem_forward {w : Nat} {cod : List Char}
    (h : cod ∈ build_codons false w w) :
    rev_comp cod ∈ build_codons true w w ∧
      (rev_comp cod).getD w 'X' = rev_comp_c (cod.getD w 'X') := by
  obtain ⟨x, c, y, hx, hy, hxb, hyb, hc, rfl⟩ := mem_build_codons.mp h
  rw [rev_comp_append_center]
  have hylen : (y.reverse.map rev_comp_c).length = w := by simp [hy]
  constructor
  · rw [mem_build_codons]
    refine ⟨y.reverse.map rev_comp_c, rev_comp_c c, x.reverse.map rev_comp_c,
      hylen, by simp [hx], ?_, ?_, ?_, rfl⟩
    · intro b hb
      obtain ⟨b', hb', rfl⟩ := List.mem_map.mp hb
      exact rev_comp_c_base b' (hyb b' (List.mem_reverse.mp hb'))
    · intro b hb
      obtain ⟨b', hb', rfl⟩ := List.mem_map.mp hb
      exact rev_comp_c_base b' (hxb b' (List.mem_reverse.mp hb'))
    · simp only [if_pos rfl]
      simp only [if_neg Bool.false_ne_true] at hc
      fin_cases hc <;> decide
  · have h1 : (List.map rev_comp_c y.reverse ++
        rev_comp_c c :: List.map rev_comp_c x.reverse).getD w 'X' = rev_comp_c c := by
      conv_lhs => rw [← hylen]
      exact getD_append_center _ _ _ _
    have h2 : (x ++ c :: y).getD w 'X' = c := by
      conv_lhs => rw [← hx]
      exact getD_append_center _ _ _ _
    rw [h1, h2]

/-! ## The insertion events performed by the two passes of `build_signatures` -/

/-- The alternatives registered for a center base: every base except the center,
in base order (the `if n != cn` filter of the source loops). -/
def altsOf (cn : Char) : List Char := bases.filter (fun n => n != cn)

/-- The signature/index pairs inserted for one forward codon: one per
alternative, with sequential indices. -/
def altEvents (cod : List Char) (cn : Char) : List Char → Nat → List (Signature × Nat)
  | [], _ => []
  | n :: ns, idx => (⟨cod, cn, n⟩, idx) :: altEvents cod cn ns (idx + 1)

/-- All insertions of the forward pass over a codon list, starting at a given
running index. -/
def fwdEvents (w : Nat) : List (List Char) → Nat → List (Signature × Nat)
  | [], _ => []
  | cod :: rest, idx =>
    altEvents cod (cod.getD w 'X') (altsOf (cod.getD w 'X')) idx ++
      fwdEvents w rest (idx + (altsOf (cod.getD w 'X')).length)

/-- All insertions of the reverse pass over a codon list, with every
reverse-complement lookup taken against a fixed map `mf`. -/
def revEvents (w : Nat) (mf : SigMap) : List (List Char) → List (Signature × Nat)
  | [] => []
  | cod :: rest =>
    ((altsOf (cod.getD w 'X')).map fun n =>
      ((⟨cod, cod.getD w 'X', n⟩ : Signature),
        (lookupSig mf ⟨rev_comp cod, cod.getD w 'X', rev_comp_c n⟩).getD 0)) ++
      revEvents w mf rest

theorem fwd_inner_C (cod : List Char) (m : SigMap) (idx : Nat) :
    bases.foldl
      (fun acc n => if n ≠ 'C' then (insertSig acc.1 ⟨cod, 'C', n⟩ acc.2, acc.2 + 1) else acc)
      (m, idx) =
    (insertAll m (altEvents cod 'C' (altsOf 'C') idx), idx + 3) := rfl

theorem fwd_inner_T (cod : List Char) (m : SigMap) (idx : Nat) :
    bases.foldl
      (fun acc n => if n ≠ 'T' then (insertSig acc.1 ⟨cod, 'T', n⟩ acc.2, acc.2 + 1) else acc)
      (m, idx) =
    (insertAll m (altEvents cod 'T' (altsOf 'T') idx), idx + 3) := rfl

theorem fwdPassGo_eq (w : Nat) :
    ∀ (cods : List (List Char)) (m : SigMap) (idx : Nat),
    (∀ cod ∈ cods, cod.getD w 'X' = 'C' ∨ cod.getD w 'X' = 'T') →
    fwdPassGo w cods m idx = (insertAll m (fwdEvents w cods idx), idx + 3 * cods.length) := by
  intro cods
  induction cods with
  | nil =>
    intro m idx h
    simp [fwdPassGo, fwdEvents, insertAll]
  | cons cod rest ih =>
    intro m idx h
    have hrest : ∀ c ∈ rest, c.getD w 'X' = 'C' ∨ c.getD w 'X' = 'T' :=
      fun c hc => h c (List.mem_cons_of_mem _ hc)
    have hev : fwdEvents w (cod :: rest) idx =
        altEvents cod (cod.getD w 'X') (altsOf (cod.getD w 'X')) idx ++
          fwdEvents w rest (idx + (altsOf (cod.getD w 'X')).length) := rfl
    rcases h cod (List.mem_cons_self _ _) with hcn | hcn
    · show fwdPassGo w rest
        (bases.foldl (fun acc n =>
          if n ≠ cod.getD w 'X' then
            (insertSig acc.1 ⟨cod, cod.getD w 'X', n⟩ acc.2, acc.2 + 1)
          else acc) (m, idx)).1
        (bases.foldl (fun acc n =>
          if n ≠ cod.getD w 'X' then
            (insertSig acc.1 ⟨cod, cod.getD w 'X', n⟩ acc.2, acc.2 + 1)
          else acc) (m, idx)).2 = _
      rw [hcn, fwd_inner_C]
      rw [ih _ _ hrest]
      rw [hev, hcn, insertAll_append]
      simp only [Prod.mk.injEq, List.length_cons]
      constructor
      · rfl
      · show idx + 3 + 3 * rest.length = idx + 3 * (rest.length + 1)
        ring
    · show fwdPassGo w rest
        (bases.foldl (fun acc n =>
          if n ≠ cod.getD w 'X' then
            (insertSig acc.1 ⟨cod, cod.getD w 'X', n⟩ acc.2, acc.2 + 1)
          else acc) (m, idx)).1
        (bases.foldl (fun acc n =>
          if n ≠ cod.getD w 'X' then
            (insertSig acc.1 ⟨cod, cod.getD w 'X', n⟩ acc.2, acc.2 + 1)
          else acc) (m, idx)).2 = _
      rw [hcn, fwd_inner_T]
      rw [ih _ _ hrest]
      rw [hev, hcn, insertAll_append]
      simp only [Prod.mk.injEq, List.length_cons]
      constructor
      · rfl
      · show idx + 3 + 3 * rest.length = idx + 3 * (rest.length + 1)
        ring

theorem center_fwd {w : Nat} {cod : List Char} (h : cod ∈ build_codons true w w) :
    cod.getD w 'X' = 'C' ∨ cod.getD w 'X' = 'T' := by
  have hc := (center_of_mem_build_codons h).1
  simp only [if_pos rfl] at hc
  simpa using hc

theorem center_rev {w : Nat} {cod : List Char} (h : cod ∈ build_codons false w w) :
    cod.getD w 'X' = 'A' ∨ cod.getD w 'X' = 'G' := by
  have hc := (center_of_mem_build_codons h).1
  simp only [if_neg Bool.false_ne_true] at hc
  simpa using hc

theorem pyr_ne_pur {a b : Char} (ha : a = 'C' ∨ a = 'T') (hb : b = 'A' ∨ b = 'G') :
    a ≠ b := by
  rcases ha with rfl | rfl <;> rcases hb with rfl | rfl <;> decide

theorem lookup_insert_of_codon_ne {m : SigMap} {k k' : Signature} {v : Nat}
    (h : k'.codon ≠ k.codon) :
    lookupSig (insertSig m k v) k' = lookupSig m k' := by
  rw [lookupSig_insertSig, if_neg fun hk => h hk.1]

theorem lookup_insertAll_of_codon_ne {ks : List (Signature × Nat)} :
    ∀ {m : SigMap} {k' : Signature}, (∀ p ∈ ks, k'.codon ≠ p.1.codon) →
    lookupSig (insertAll m ks) k' = lookupSig m k' := by
  induction ks with
  | nil => intro m k' _; rfl
  | cons p rest ih =>
    intro m k' h
    rw [insertAll_cons, ih fun q hq => h q (List.mem_cons_of_mem _ hq),
      lookup_insert_of_codon_ne (h p (List.mem_cons_self _ _))]

theorem rev_inner_go (cod cod2 : List Char) (cn : Char) (hne : cod2 ≠ cod) :
    ∀ (ns : List Char) (m : SigMap),
    ns.foldl
      (fun m n =>
        if n ≠ cn then
          insertSig m ⟨cod, cn, n⟩ ((lookupSig m ⟨cod2, cn, rev_comp_c n⟩).getD 0)
        else m) m =
    insertAll m ((ns.filter (fun n => n != cn)).map fun n =>
      ((⟨cod, cn, n⟩ : Signature),
        (lookupSig m ⟨cod2, cn, rev_comp_c n⟩).getD 0)) := by
  intro ns
  induction ns with
  | nil => intro m; rfl
  | cons n rest ih =>
    intro m
    by_cases hn : n = cn
    · rw [List.foldl_cons, if_neg (by simpa using hn), List.filter_cons,
        if_neg (by simpa using hn)]
      exact ih m
    · rw [List.foldl_cons, if_pos hn, List.filter_cons, if_pos (by simpa using hn)]
      rw [ih]
      rw [List.map_cons, insertAll_cons]
      congr 1
      refine List.map_congr_left ?_
      intro a ha
      have : lookupSig
          (insertSig m ⟨cod, cn, n⟩ ((lookupSig m ⟨cod2, cn, rev_comp_c n⟩).getD 0))
          ⟨cod2, cn, rev_comp_c a⟩ = lookupSig m ⟨cod2, cn, rev_comp_c a⟩ :=
        lookup_insert_of_codon_ne hne
      rw [this]

theorem revEvents_stable (w : Nat) (ks : List (Signature × Nat))
    (hks : ∀ p ∈ ks, p.1.codon.getD w 'X' = 'A' ∨ p.1.codon.getD w 'X' = 'G') :
    ∀ (cods : List (List Char)) (m : SigMap),
    (∀ cod ∈ cods, cod ∈ build_codons false w w) →
    revEvents w (insertAll m ks) cods = revEvents w m cods := by
  intro cods
  induction cods with
  | nil => intro m _; rfl
  | cons cod rest ih =>
    intro m hc
    have hcod := hc cod (List.mem_cons_self _ _)
    have hpyr := center_fwd (rev_comp_mem_forward hcod).1
    simp only [revEvents]
    rw [ih m fun c h => hc c (List.mem_cons_of_mem _ h)]
    congr 1
    refine List.map_congr_left ?_
    intro a _
    have : lookupSig (insertAll m ks) ⟨rev_comp cod, cod.getD w 'X', rev_comp_c a⟩ =
        lookupSig m ⟨rev_comp cod, cod.getD w 'X', rev_comp_c a⟩ := by
      refine lookup_insertAll_of_codon_ne ?_
      intro p hp
      intro heq
      have hcent : (rev_comp cod).getD w 'X' = p.1.codon.getD w 'X' := by
        show ((⟨rev_comp cod, cod.getD w 'X', rev_comp_c a⟩ : Signature).codon).getD w 'X' = _
        rw [heq]
      exact pyr_ne_pur hpyr (hks p hp) hcent
    rw [this]

theorem revPassGo_eq (w : Nat) :
    ∀ (cods : List (List Char)) (m : SigMap),
    (∀ cod ∈ cods, cod ∈ build_codons false w w) →
    revPassGo w cods m = insertAll m (revEvents w m cods) := by
  intro cods
  induction cods with
  | nil => intro m _; rfl
  | cons cod rest ih =>
    intro m hc
    have hcod := hc cod (List.mem_cons_self _ _)
    have hcn := center_rev hcod
    have hpyr := center_fwd (rev_comp_mem_forward hcod).1
    have hcent2 := (rev_comp_mem_forward hcod).2
    have hne : rev_comp cod ≠ cod := by
      intro heq
      have : (rev_comp cod).getD w 'X' = cod.getD w 'X' := by rw [heq]
      exact pyr_ne_pur hpyr hcn this
    have hrest : ∀ c ∈ rest, c ∈ build_codons false w w :=
      fun c h => hc c (List.mem_cons_of_mem _ h)
    show revPassGo w rest
        (bases.foldl
          (fun m n =>
            if n ≠ cod.getD w 'X' then
              insertSig m ⟨cod, cod.getD w 'X', n⟩
                ((lookupSig m ⟨rev_comp cod, cod.getD w 'X', rev_comp_c n⟩).getD 0)
            else m) m) = _
    rw [rev_inner_go cod (rev_comp cod) (cod.getD w 'X') hne bases m]
    rw [ih _ hrest]
    have hblock : ∀ p ∈ ((bases.filter (fun n => n != cod.getD w 'X')).map fun n =>
        ((⟨cod, cod.getD w 'X', n⟩ : Signature),
          (lookupSig m ⟨rev_comp cod, cod.getD w 'X', rev_comp_c n⟩).getD 0)),
        p.1.codon.getD w 'X' = 'A' ∨ p.1.codon.getD w 'X' = 'G' := by
      intro p hp
      obtain ⟨n, -, rfl⟩ := List.mem_map.mp hp
      exact hcn
    rw [revEvents_stable w _ hblock rest m hrest]
    rw [← insertAll_append]
    rfl

/-! ## Properties of the event lists -/

theorem mem_altsOf {n cn : Char} : n ∈ altsOf cn ↔ n ∈ bases ∧ n ≠ cn := by
  simp [altsOf, List.mem_filter]

theorem length_altsOf {cn : Char} (h : cn ∈ bases) : (altsOf cn).length = 3 := by
  fin_cases h <;> decide

theorem nodup_altsOf (cn : Char) : (altsOf cn).Nodup :=
  List.Nodup.filter _ (by decide)

theorem length_altEvents (cod : List Char) (cn : Char) :
    ∀ (ns : List Char) (idx : Nat), (altEvents cod cn ns idx).length = ns.length := by
  intro ns
  induction ns with
  | nil => intro idx; rfl
  | cons n rest ih => intro idx; simp [altEvents, ih]

theorem snd_altEvents (cod : List Char) (cn : Char) :
    ∀ (ns : List Char) (idx : Nat),
    (altEvents cod cn ns idx).map Prod.snd = List.range' idx ns.length := by
  intro ns
  induction ns with
  | nil => intro idx; rfl
  | cons n rest ih =>
    intro idx
    rw [altEvents, List.map_cons, ih, List.length_cons, List.range'_succ]

theorem mem_altEvents {cod : List Char} {cn : Char} :
    ∀ {ns : List Char} {idx : Nat} {e : Signature × Nat}, e ∈ altEvents cod cn ns idx →
    e.1.codon = cod ∧ e.1.reference = cn ∧ e.1.alternative ∈ ns := by
  intro ns
  induction ns with
  | nil => intro idx e h; cases h
  | cons n rest ih =>
    intro idx e h
    rcases List.mem_cons.mp h with h' | h'
    · rw [h']
      exact ⟨rfl, rfl, List.mem_cons_self _ _⟩
    · obtain ⟨h1, h2, h3⟩ := ih h'
      exact ⟨h1, h2, List.mem_cons_of_mem _ h3⟩

theorem mem_altEvents_of (cod : List Char) (cn : Char) :
    ∀ (ns : List Char) (idx : Nat) (n : Char), n ∈ ns →
    ∃ v, ((⟨cod, cn, n⟩ : Signature), v) ∈ altEvents cod cn ns idx := by
  intro ns
  induction ns with
  | nil => intro idx n h; cases h
  | cons n0 rest ih =>
    intro idx n h
    rcases List.mem_cons.mp h with h' | h'
    · exact ⟨idx, by rw [h']; exact List.mem_cons_self _ _⟩
    · obtain ⟨v, hv⟩ := ih (idx + 1) n h'
      exact ⟨v, List.mem_cons_of_mem _ hv⟩

theorem pairwise_altEvents (cod : List Char) (cn : Char) :
    ∀ (ns : List Char) (idx : Nat), ns.Nodup →
    (altEvents cod cn ns idx).Pairwise (fun p q => ¬ keyEq p.1 q.1) := by
  intro ns
  induction ns with
  | nil => intro idx _; exact List.Pairwise.nil
  | cons n rest ih =>
    intro idx h
    rw [List.nodup_cons] at h
    refine List.Pairwise.cons ?_ (ih (idx + 1) h.2)
    intro q hq hk
    obtain ⟨-, -, h3⟩ := mem_altEvents hq
    have hn : n = q.1.alternative := hk.2
    exact h.1 (by rw [hn]; exact h3)

theorem findVal_append (l1 l2 : List (Signature × Nat)) (k : Signature) :
    findVal (l1 ++ l2) k =
      match findVal l1 k with
      | some v => some v
      | none => findVal l2 k := by
  induction l1 with
  | nil => rfl
  | cons p rest ih =>
    simp only [List.cons_append, findVal]
    by_cases hk : keyEq k p.1
    · rw [if_pos hk, if_pos hk]
    · rw [if_neg hk, if_neg hk]
      exact ih

theorem findVal_isSome_of_mem {l : List (Signature × Nat)} {k k' : Signature} {v : Nat}
    (h : (k', v) ∈ l) (hk : keyEq k k') : (findVal l k).isSome := by
  induction l with
  | nil => cases h
  | cons p rest ih =>
    simp only [findVal]
    by_cases hp : keyEq k p.1
    · rw [if_pos hp]
      rfl
    · rw [if_neg hp]
      rcases List.mem_cons.mp h with h' | h'
      · rw [← h'] at hp
        exact absurd hk hp
      · exact ih h'

theorem mem_fwdEvents {w : Nat} :
    ∀ {cods : List (List Char)} {idx : Nat} {e : Signature × Nat},
    e ∈ fwdEvents w cods idx →
    e.1.codon ∈ cods ∧ e.1.reference = e.1.codon.getD w 'X' ∧
      e.1.alternative ∈ altsOf (e.1.codon.getD w 'X') := by
  intro cods
  induction cods with
  | nil => intro idx e h; cases h
  | cons cod rest ih =>
    intro idx e h
    rcases List.mem_append.mp h with h' | h'
    · obtain ⟨h1, h2, h3⟩ := mem_altEvents h'
      refine ⟨by rw [h1]; exact List.mem_cons_self _ _, by rw [h1]; exact h2,
        by rw [h1]; exact h3⟩
    · obtain ⟨h1, h2, h3⟩ := ih h'
      exact ⟨List.mem_cons_of_mem _ h1, h2, h3⟩

theorem snd_fwdEvents {w : Nat} :
    ∀ (cods : List (List Char)) (idx : Nat),
    (∀ cod ∈ cods, cod.getD w 'X' = 'C' ∨ cod.getD w 'X' = 'T') →
    (fwdEvents w cods idx).map Prod.snd = List.range' idx (3 * cods.length) := by
  intro cods
  induction cods with
  | nil => intro idx _; rfl
  | cons cod rest ih =>
    intro idx h
    have hcn : cod.getD w 'X' ∈ bases := by
      rcases h cod (List.mem_cons_self _ _) with h' | h' <;> rw [h'] <;> decide
    rw [fwdEvents, List.map_append, snd_altEvents,
      ih _ fun c hc => h c (List.mem_cons_of_mem _ hc),
      length_altsOf hcn]
    have := List.range'_append idx 3 (3 * rest.length) 1
    simp only [one_mul] at this
    rw [this]
    congr 1

theorem length_fwdEvents {w : Nat} (cods : List (List Char)) (idx : Nat)
    (h : ∀ cod ∈ cods, cod.getD w 'X' = 'C' ∨ cod.getD w 'X' = 'T') :
    (fwdEvents w cods idx).length = 3 * cods.length := by
  have := congrArg List.length (snd_fwdEvents cods idx h)
  simpa [List.length_range'] using this

theorem pairwise_fwdEvents {w : Nat} :
    ∀ (cods : List (List Char)) (idx : Nat), cods.Nodup →
    (fwdEvents w cods idx).Pairwise (fun p q => ¬ keyEq p.1 q.1) := by
  intro cods
  induction cods with
  | nil => intro idx _; exact List.Pairwise.nil
  | cons cod rest ih =>
    intro idx h
    rw [List.nodup_cons] at h
    rw [fwdEvents, List.pairwise_append]
    refine ⟨pairwise_altEvents _ _ _ _ (nodup_altsOf _), ih _ h.2, ?_⟩
    intro p hp q hq hk
    have h1 := (mem_altEvents hp).1
    have h2 := (mem_fwdEvents hq).1
    rw [← hk.1, h1] at h2
    exact h.1 h2

theorem findVal_fwdEvents_isSome {w : Nat} :
    ∀ (cods : List (List Char)) (idx : Nat) (k : Signature),
    k.codon ∈ cods → k.alternative ∈ altsOf (k.codon.getD w 'X') →
    (findVal (fwdEvents w cods idx) k).isSome := by
  intro cods
  induction cods with
  | nil => intro idx k h _; cases h
  | cons cod rest ih =>
    intro idx k hcod halt
    rw [fwdEvents, findVal_append]
    rcases hfb : findVal (altEvents cod (cod.getD w 'X') (altsOf (cod.getD w 'X')) idx) k
      with _ | v
    · rcases List.mem_cons.mp hcod with h' | h'
      · obtain ⟨v, hv⟩ := mem_altEvents_of cod (cod.getD w 'X')
          (altsOf (cod.getD w 'X')) idx k.alternative (by rw [← h']; exact halt)
        have := findVal_isSome_of_mem hv ⟨h', rfl⟩
        rw [hfb] at this
        cases this
      · exact ih _ k h' halt
    · rfl

theorem mem_revEvents {w : Nat} {mf : SigMap} :
    ∀ {cods : List (List Char)} {e : Signature × Nat}, e ∈ revEvents w mf cods →
    ∃ cod ∈ cods, e.1.codon = cod ∧ e.1.reference = cod.getD w 'X' ∧
      e.1.alternative ∈ altsOf (cod.getD w 'X') ∧
      e.2 = (lookupSig mf
        ⟨rev_comp cod, cod.getD w 'X', rev_comp_c e.1.alternative⟩).getD 0 := by
  intro cods
  induction cods with
  | nil => intro e h; cases h
  | cons cod rest ih =>
    intro e h
    rcases List.mem_append.mp h with h' | h'
    · obtain ⟨n, hn, rfl⟩ := List.mem_map.mp h'
      exact ⟨cod, List.mem_cons_self _ _, rfl, rfl, hn, rfl⟩
    · obtain ⟨c, hc, h1, h2, h3, h4⟩ := ih h'
      exact ⟨c, List.mem_cons_of_mem _ hc, h1, h2, h3, h4⟩

theorem length_revEvents {w : Nat} {mf : SigMap} :
    ∀ (cods : List (List Char)), (∀ cod ∈ cods, cod ∈ build_codons false w w) →
    (revEvents w mf cods).length = 3 * cods.length := by
  intro cods
  induction cods with
  | nil => intro _; rfl
  | cons cod rest ih =>
    intro h
    have hcn : cod.getD w 'X' ∈ bases := by
      rcases center_rev (h cod (List.mem_cons_self _ _)) with h' | h' <;> rw [h'] <;> decide
    rw [revEvents, List.length_append, List.length_map, length_altsOf hcn,
      ih fun c hc => h c (List.mem_cons_of_mem _ hc), List.length_cons]
    ring

theorem pairwise_revEvents {w : Nat} {mf : SigMap} :
    ∀ (cods : List (List Char)), cods.Nodup →
    (revEvents w mf cods).Pairwise (fun p q => ¬ keyEq p.1 q.1) := by
  intro cods
  induction cods with
  | nil => intro _; exact List.Pairwise.nil
  | cons cod rest ih =>
    intro h
    rw [List.nodup_cons] at h
    rw [revEvents, List.pairwise_append]
    refine ⟨?_, ih h.2, ?_⟩
    · rw [List.pairwise_map]
      refine (nodup_altsOf (cod.getD w 'X')).imp ?_
      intro n n' hne hk
      exact hne hk.2
    · intro p hp q hq hk
      obtain ⟨n, -, rfl⟩ := List.mem_map.mp hp
      obtain ⟨c, hc, h1, -, -, -⟩ := mem_revEvents hq
      have h5 : cod = q.1.codon := hk.1
      have hcc : cod = c := by rw [h5]; exact h1
      exact h.1 (by rw [hcc]; exact hc)

/-! ## Structure of the built signature catalog -/

/-- The map after the forward pass of `build_signatures`. -/
def fwdMap (w : Nat) : SigMap :=
  insertAll [] (fwdEvents w (build_codons true w w) 0)

theorem build_signatures_eq (w : Nat) :
    build_signatures w =
      insertAll (fwdMap w) (revEvents w (fwdMap w) (build_codons false w w)) := by
  rw [build_signatures, fwdPassGo_eq w _ [] 0 (fun cod hc => center_fwd hc)]
  exact revPassGo_eq w _ _ (fun cod hc => hc)

theorem fwdEvents_fresh_nil (w : Nat) :
    ∀ p ∈ fwdEvents w (build_codons true w w) 0,
      lookupSig ([] : SigMap) p.1 = none :=
  fun _ _ => rfl

theorem lookup_fwdMap (w : Nat) (k : Signature) :
    lookupSig (fwdMap w) k = findVal (fwdEvents w (build_codons true w w) 0) k := by
  rw [fwdMap, lookupSig_insertAll (fwdEvents_fresh_nil w)
    (pairwise_fwdEvents _ _ (nodup_build_codons true w w)) k]
  rcases findVal (fwdEvents w (build_codons true w w) 0) k with _ | v <;> rfl

theorem fwdMap_perm (w : Nat) :
    (fwdMap w).Perm (fwdEvents w (build_codons true w w) 0) := by
  have h := insertAll_perm (m := ([] : SigMap)) (fwdEvents_fresh_nil w)
    (pairwise_fwdEvents _ 0 (nodup_build_codons true w w))
  simpa using h

/-- Every key of the reverse-pass event list is fresh for the forward map:
its codon is purine-centered while all forward codons are pyrimidine-centered. -/
theorem revEvents_fresh (w : Nat) :
    ∀ p ∈ revEvents w (fwdMap w) (build_codons false w w),
      lookupSig (fwdMap w) p.1 = none := by
  intro p hp
  obtain ⟨cod, hcodmem, hcodon, -, -, -⟩ := mem_revEvents hp
  rw [lookup_fwdMap]
  refine findVal_eq_none ?_
  intro q hq hk
  obtain ⟨hq1, -, -⟩ := mem_fwdEvents hq
  have hc1 := center_rev hcodmem
  have hc2 := center_fwd hq1
  have : cod.getD w 'X' = q.1.codon.getD w 'X' := by
    rw [← hcodon, hk.1]
  rw [← this] at hc2
  exact pyr_ne_pur hc2 hc1 rfl

theorem build_signatures_perm (w : Nat) :
    (build_signatures w).Perm
      (revEvents w (fwdMap w) (build_codons false w w) ++
        fwdEvents w (build_codons true w w) 0) := by
  rw [build_signatures_eq]
  refine (insertAll_perm (revEvents_fresh w)
    (pairwise_revEvents _ (nodup_build_codons false w w))).trans ?_
  exact List.Perm.append_left _ (fwdMap_perm w)

theorem length_fwd_codons (w : Nat) :
    3 * (build_codons true w w).length = 6 * 4 ^ (2 * w) := by
  rw [length_build_codons, two_mul]
  ring

theorem length_rev_codons (w : Nat) :
    3 * (build_codons false w w).length = 6 * 4 ^ (2 * w) := by
  rw [length_build_codons, two_mul]
  ring

theorem build_signatures_length (w : Nat) :
    (build_signatures w).length = 12 * 4 ^ (2 * w) := by
  rw [(build_signatures_perm w).length_eq, List.length_append,
    length_revEvents _ (fun c h => h),
    length_fwdEvents _ 0 (fun c h => center_fwd h),
    length_rev_codons, length_fwd_codons]
  ring

theorem sortedMap_build_signatures (w : Nat) : SortedMap (build_signatures w) := by
  rw [build_signatures_eq]
  exact sortedMap_insertAll _ (sortedMap_insertAll _ List.Pairwise.nil)

/-- Looking up any pyrimidine-center-codon key in the final catalog falls
through the reverse entries to the forward map. -/
theorem lookup_build_pyr (w : Nat) (k : Signature)
    (h : k.codon.getD w 'X' = 'C' ∨ k.codon.getD w 'X' = 'T') :
    lookupSig (build_signatures w) k = lookupSig (fwdMap w) k := by
  rw [build_signatures_eq, lookupSig_insertAll (revEvents_fresh w)
    (pairwise_revEvents _ (nodup_build_codons false w w)) k]
  have hnone : findVal (revEvents w (fwdMap w) (build_codons false w w)) k = none := by
    refine findVal_eq_none ?_
    intro q hq hk
    obtain ⟨cod, hcodmem, hcodon, -, -, -⟩ := mem_revEvents hq
    have hc1 := center_rev hcodmem
    have : k.codon.getD w 'X' = cod.getD w 'X' := by
      rw [hk.1, hcodon]
    rw [← this] at hc1
    exact pyr_ne_pur h hc1 rfl
  rw [hnone]

/-! ## Claim C1 -/

/-- C1 (counterexample): the claim says `Signatures::len` returns `6·4^(2w)`
(96 at `w = 1`), but the `BTreeMap` holds both the forward and the reverse
keys, so at `w = 1` it returns 192, not 96. -/
theorem Signatures_len_eq (w : Nat) :
    (Signatures.new w).len = (build_signatures w).length := rfl

theorem c1_len_counterexample : (Signatures.new 1).len ≠ 6 * 4 ^ (2 * 1) := by
  rw [Signatures_len_eq, build_signatures_length]
  decide

/-- C1 (amended): for every window `w`, `Signatures::len` returns
`12·4^(2w)` — twice the number of canonical classes, because forward and
reverse signatures are stored as distinct keys. -/
theorem c1_len_amended (w : Nat) : (Signatures.new w).len = 12 * 4 ^ (2 * w) := by
  rw [Signatures_len_eq]
  exact build_signatures_length w

/-! ## Claim C2 -/

/-- C2: every purine-referenced signature registered by `build_signatures` is
mapped to the same index as its reverse-complement signature, and that
reverse-complement signature's reference is a pyrimidine. -/
theorem c2_purine_revcomp_same_index (w : Nat) (k : Signature) (idx : Nat)
    (hmem : (k, idx) ∈ (Signatures.new w).db)
    (hpur : k.reference = 'A' ∨ k.reference = 'G') :
    (Signatures.new w).index_of (revCompSig k) = some idx ∧
      ((revCompSig k).reference = 'C' ∨ (revCompSig k).reference = 'T') := by
  have hmem' := ((build_signatures_perm w).mem_iff).mp hmem
  rcases List.mem_append.mp hmem' with hrev | hfwd
  swap
  · obtain ⟨h1, h2, -⟩ := mem_fwdEvents hfwd
    have hc := center_fwd h1
    rw [← h2] at hc
    exact absurd rfl (pyr_ne_pur hc hpur)
  obtain ⟨cod, hcodmem, hcodon, href, halt, hval⟩ := mem_revEvents hrev
  have hfwd_cod := rev_comp_mem_forward hcodmem
  have haltmem := mem_altsOf.mp halt
  have hcent := center_rev hcodmem
  have hcnb : cod.getD w 'X' ∈ bases := by
    rcases hcent with h | h <;> rw [h] <;> decide
  have hsome : (findVal (fwdEvents w (build_codons true w w) 0)
      ⟨rev_comp cod, cod.getD w 'X', rev_comp_c (k, idx).1.alternative⟩).isSome := by
    refine findVal_fwdEvents_isSome _ 0 _ hfwd_cod.1 ?_
    rw [mem_altsOf]
    refine ⟨rev_comp_c_base _ haltmem.1, ?_⟩
    show rev_comp_c (k, idx).1.alternative ≠ (rev_comp cod).getD w 'X'
    rw [hfwd_cod.2]
    intro heq
    have h1 := rev_comp_c_invol _ haltmem.1
    have h2 := rev_comp_c_invol _ hcnb
    rw [heq, h2] at h1
    exact haltmem.2 h1.symm
  obtain ⟨v, hv⟩ := Option.isSome_iff_exists.mp hsome
  have hkey : keyEq (revCompSig k)
      ⟨rev_comp cod, cod.getD w 'X', rev_comp_c (k, idx).1.alternative⟩ := by
    constructor
    · show rev_comp k.codon = rev_comp cod
      rw [show k.codon = cod from hcodon]
    · rfl
  have hpyr2 : (revCompSig k).codon.getD w 'X' = 'C' ∨
      (revCompSig k).codon.getD w 'X' = 'T' := by
    show (rev_comp k.codon).getD w 'X' = 'C' ∨ (rev_comp k.codon).getD w 'X' = 'T'
    rw [show k.codon = cod from hcodon, hfwd_cod.2]
    rcases hcent with h | h <;> rw [h]
    · right
      rfl
    · left
      rfl
  have hlook : lookupSig (build_signatures w) (revCompSig k) = some v := by
    rw [lookup_build_pyr w _ hpyr2, lookupSig_respects_keyEq _ hkey, lookup_fwdMap, hv]
  have hidx : idx = v := by
    have : idx = (lookupSig (fwdMap w)
        ⟨rev_comp cod, cod.getD w 'X', rev_comp_c (k, idx).1.alternative⟩).getD 0 := hval
    rw [lookup_fwdMap, hv] at this
    exact this
  constructor
  · show lookupSig (build_signatures w) (revCompSig k) = some idx
    rw [hlook, hidx]
  · show rev_comp_c k.reference = 'C' ∨ rev_comp_c k.reference = 'T'
    rcases hpur with h | h <;> rw [h]
    · right
      rfl
    · left
      rfl

/-- C2 witness: at `w = 0` the purine-referenced signature `A:A>C` is stored
with index 5, and the catalog maps its reverse complement `T:T>G` to 5. -/
theorem c2_purine_revcomp_same_index_witness :
    ((⟨['A'], 'A', 'C'⟩, 5) ∈ (Signatures.new 0).db) ∧
      ((Signatures.new 0).index_of (revCompSig ⟨['A'], 'A', 'C'⟩) = some 5 ∧
        ((revCompSig ⟨['A'], 'A', 'C'⟩).reference = 'C' ∨
          (revCompSig ⟨['A'], 'A', 'C'⟩).reference = 'T')) :=
  ⟨by decide, c2_purine_revcomp_same_index 0 ⟨['A'], 'A', 'C'⟩ 5 (by decide) (by decide)⟩

/-! ## Claim C3 -/

/-- Forward-pass entries keep their index in the final catalog. -/
theorem lookup_build_fwdEvent (w : Nat) {e : Signature × Nat}
    (he : e ∈ fwdEvents w (build_codons true w w) 0) :
    lookupSig (build_signatures w) e.1 = some e.2 := by
  obtain ⟨h1, -, -⟩ := mem_fwdEvents he
  rw [lookup_build_pyr w _ (center_fwd h1), lookup_fwdMap]
  exact findVal_of_mem (pairwise_fwdEvents _ 0 (nodup_build_codons true w w)) he

/-- The reverse-complement (purine-referenced) entries of the catalog are not
forward signatures, the forward entries are. -/
theorem filter_forward_perm (w : Nat) :
    ((Signatures.new w).signatures.filter Signature.is_forward_signature).Perm
      ((fwdEvents w (build_codons true w w) 0).map Prod.fst) := by
  have hperm : (Signatures.new w).signatures.Perm
      ((revEvents w (fwdMap w) (build_codons false w w)).map Prod.fst ++
        (fwdEvents w (build_codons true w w) 0).map Prod.fst) := by
    have h := (build_signatures_perm w).map Prod.fst
    rw [List.map_append] at h
    exact h
  refine (hperm.filter _).trans ?_
  rw [List.filter_append]
  have hrev : ((revEvents w (fwdMap w) (build_codons false w w)).map Prod.fst).filter
      Signature.is_forward_signature = [] := by
    rw [List.filter_eq_nil_iff]
    intro a ha
    obtain ⟨q, hq, rfl⟩ := List.mem_map.mp ha
    obtain ⟨cod, hcodmem, -, href, -, -⟩ := mem_revEvents hq
    rw [Signature.is_forward_signature, href]
    rcases center_rev hcodmem with h | h <;> rw [h] <;> decide
  have hfwd : ((fwdEvents w (build_codons true w w) 0).map Prod.fst).filter
      Signature.is_forward_signature =
      (fwdEvents w (build_codons true w w) 0).map Prod.fst := by
    rw [List.filter_eq_self]
    intro a ha
    obtain ⟨q, hq, rfl⟩ := List.mem_map.mp ha
    obtain ⟨h1, h2, -⟩ := mem_fwdEvents hq
    rw [Signature.is_forward_signature, h2]
    rcases center_fwd h1 with h | h <;> rw [h] <;> decide
  rw [hrev, hfwd, List.nil_append]

/-- C3 (counterexample): the claim says the catalog's enumeration
(`Signatures::signatures`) is restricted to forward/pyrimidine-referenced
signatures; already at `w = 0` it also returns the purine-referenced keys. -/
theorem c3_enumerate_counterexample :
    ((Signatures.new 0).signatures.all Signature.is_forward_signature) = false := by
  decide

/-- C3 (amended): the reporting enumeration — `Signatures::signatures` filtered
to forward signatures, as done by `main` — yields exactly `6·4^(2w)` entries
(half of `len()`), is sorted by `(context, alternative)`, and its resolved
indices are exactly `0, …, 6·4^(2w) - 1`, each once. -/
theorem c3_enumerate_amended (w : Nat) :
    ((Signatures.new w).signatures.filter Signature.is_forward_signature).length
        = 6 * 4 ^ (2 * w) ∧
    List.Pairwise (fun a b => cmpSig a b = Ordering.lt)
      ((Signatures.new w).signatures.filter Signature.is_forward_signature) ∧
    (((Signatures.new w).signatures.filter Signature.is_forward_signature).map
        (Signatures.new w).index_of).Perm
      ((List.range (6 * 4 ^ (2 * w))).map some) := by
  have hN : 3 * (build_codons true w w).length = 6 * 4 ^ (2 * w) := length_fwd_codons w
  refine ⟨?_, ?_, ?_⟩
  · rw [(filter_forward_perm w).length_eq, List.length_map,
      length_fwdEvents _ 0 (fun c h => center_fwd h), hN]
  · have hsorted : List.Pairwise (fun a b => cmpSig a b = Ordering.lt)
        (Signatures.new w).signatures := by
      rw [Signatures.signatures, List.pairwise_map]
      exact sortedMap_build_signatures w
    exact List.Pairwise.sublist (List.filter_sublist _) hsorted
  · refine ((filter_forward_perm w).map _).trans ?_
    rw [List.map_map]
    have hmap : (fwdEvents w (build_codons true w w) 0).map
        ((Signatures.new w).index_of ∘ Prod.fst) =
        (fwdEvents w (build_codons true w w) 0).map (some ∘ Prod.snd) := by
      refine List.map_congr_left ?_
      intro e he
      exact lookup_build_fwdEvent w he
    rw [hmap, ← List.map_map, snd_fwdEvents _ 0 (fun c h => center_fwd h), hN,
      ← List.range_eq_range']

/-! ## Genotype lemmas -/

theorem gtEqLoop_iff : ∀ (as bs : List (Option Nat)), as.length = bs.length →
    (gtEqLoop as bs = true ↔
      ∀ i : Nat, as[i]? ≠ bs[i]? →
        ∃ j : Nat, j ≤ i ∧ (as[j]? = some none ∨ bs[j]? = some none)) := by
  intro as
  induction as with
  | nil =>
    intro bs hlen
    rw [List.length_nil] at hlen
    rw [List.length_eq_zero.mp hlen.symm]
    simp [gtEqLoop]
  | cons a as ih =>
    intro bs hlen
    cases bs with
    | nil => simp at hlen
    | cons b bs =>
      simp only [List.length_cons, Nat.add_right_cancel_iff] at hlen
      match a, b with
      | none, b =>
        constructor
        · intro _ i _
          exact ⟨0, Nat.zero_le i, Or.inl (by simp)⟩
        · intro _
          cases b <;> rfl
      | some x, none =>
        constructor
        · intro _ i _
          exact ⟨0, Nat.zero_le i, Or.inr (by simp)⟩
        · intro _
          rfl
      | some x, some y =>
        by_cases hxy : x = y
        · subst hxy
          rw [show gtEqLoop (some x :: as) (some x :: bs) = gtEqLoop as bs from by
            simp [gtEqLoop]]
          rw [ih bs hlen]
          constructor
          · intro hP i hi
            cases i with
            | zero => simp at hi
            | succ i =>
              rw [List.getElem?_cons_succ, List.getElem?_cons_succ] at hi
              obtain ⟨j, hj, hw⟩ := hP i hi
              refine ⟨j + 1, by omega, ?_⟩
              rw [List.getElem?_cons_succ, List.getElem?_cons_succ]
              exact hw
          · intro hP i hi
            have := hP (i + 1) (by
              rw [List.getElem?_cons_succ, List.getElem?_cons_succ]
              exact hi)
            obtain ⟨j, hj, hw⟩ := this
            cases j with
            | zero => simp at hw
            | succ j =>
              rw [List.getElem?_cons_succ, List.getElem?_cons_succ] at hw
              exact ⟨j, by omega, hw⟩
        · rw [show gtEqLoop (some x :: as) (some y :: bs) = false from by
            simp [gtEqLoop, hxy]]
          constructor
          · intro h
            cases h
          · intro hP
            have h0 : (some x :: as)[0]? ≠ ((some y :: bs))[0]? := by
              simp [hxy]
            obtain ⟨j, hj, hw⟩ := hP 0 h0
            rw [Nat.le_zero.mp hj] at hw
            simp at hw

/-- C4: for genotypes of equal length, the equality predicate returns `true`
iff every positional mismatch is preceded (at the same or an earlier compared
position) by a no-call on either side; in particular a no-call makes the whole
pair equal without the later positions being examined. -/
theorem c4_genotype_eq_shortcircuit (g h : Genotype)
    (hlen : g.inner.length = h.inner.length) :
    Genotype.eq g h = true ↔
      ∀ i : Nat, g.inner[i]? ≠ h.inner[i]? →
        ∃ j : Nat, j ≤ i ∧ (g.inner[j]? = some none ∨ h.inner[j]? = some none) := by
  rw [Genotype.eq, if_neg (fun hne => hne hlen)]
  exact gtEqLoop_iff g.inner h.inner hlen

/-- C4 witness: `[no-call, 1]` vs `[0, 2]` — the no-call at position 0 makes
the pair compare equal even though position 1 differs. -/
theorem c4_genotype_eq_shortcircuit_witness :
    Genotype.eq ⟨[none, some 1]⟩ ⟨[some 0, some 2]⟩ = true ↔
      ∀ i : Nat, ([none, some 1] : List (Option Nat))[i]? ≠
          ([some 0, some 2] : List (Option Nat))[i]? →
        ∃ j : Nat, j ≤ i ∧ (([none, some 1] : List (Option Nat))[j]? = some none ∨
          ([some 0, some 2] : List (Option Nat))[j]? = some none) :=
  c4_genotype_eq_shortcircuit ⟨[none, some 1]⟩ ⟨[some 0, some 2]⟩ rfl

theorem gtEqLoop_refl : ∀ (l : List (Option Nat)), gtEqLoop l l = true := by
  intro l
  induction l with
  | nil => rfl
  | cons a rest ih =>
    match a with
    | none => rfl
    | some x => simpa [gtEqLoop] using ih

theorem gtEq_refl (g : Genotype) : Genotype.eq g g = true := by
  rw [Genotype.eq, if_neg (fun hne => hne rfl)]
  exact gtEqLoop_refl g.inner

/-- C5: `is_varying_position` is `true` iff some sample's genotype is unequal
(by the `Genotype` equality predicate) to the first sample's genotype, and it
is always `false` for a single-sample list. -/
theorem c5_is_varying (gts : List Genotype) (g0 : Genotype)
    (hhead : gts.head? = some g0) :
    (is_varying_position gts = true ↔ ∃ g ∈ gts, Genotype.eq g0 g = false) ∧
      (gts.length = 1 → is_varying_position gts = false) := by
  cases gts with
  | nil => cases hhead
  | cons g rest =>
    rw [List.head?_cons, Option.some.injEq] at hhead
    subst hhead
    constructor
    · rw [is_varying_position, List.any_eq_true]
      constructor
      · rintro ⟨x, hx, hb⟩
        rw [Bool.not_eq_true'] at hb
        exact ⟨x, List.mem_cons_of_mem _ hx, hb⟩
      · rintro ⟨x, hx, hb⟩
        rcases List.mem_cons.mp hx with rfl | hx'
        · rw [gtEq_refl] at hb
          cases hb
        · exact ⟨x, hx', by rw [Bool.not_eq_true', hb]⟩
    · intro hlen
      rw [List.length_cons, Nat.add_right_cancel_iff, List.length_eq_zero] at hlen
      rw [hlen]
      rfl

/-- C5 witness: two samples with genotypes `[0]` and `[1]` vary; a singleton
list never does. -/
theorem c5_is_varying_witness :
    (is_varying_position [⟨[some 0]⟩, ⟨[some 1]⟩] = true ↔
      ∃ g ∈ [(⟨[some 0]⟩ : Genotype), ⟨[some 1]⟩],
        Genotype.eq ⟨[some 0]⟩ g = false) ∧
      (([(⟨[some 0]⟩ : Genotype), ⟨[some 1]⟩]).length = 1 →
        is_varying_position [⟨[some 0]⟩, ⟨[some 1]⟩] = false) :=
  c5_is_varying [⟨[some 0]⟩, ⟨[some 1]⟩] ⟨[some 0]⟩ rfl

/-! ## Sorting of genotype entries (no-calls first) -/

/-- Rust's `Option` ordering used by `inner.sort()`: `None` before `Some`,
`Some` ordered by value. -/
def optLe (a b : Option Nat) : Prop :=
  match a, b with
  | none, _ => True
  | some _, none => False
  | some x, some y => x ≤ y

theorem optLe_total (a b : Option Nat) : optLe a b ∨ optLe b a := by
  match a, b with
  | none, _ => exact Or.inl trivial
  | some _, none => exact Or.inr trivial
  | some x, some y =>
    rcases Nat.le_total x y with h | h
    · exact Or.inl h
    · exact Or.inr h

theorem insertOpt_perm (a : Option Nat) :
    ∀ (l : List (Option Nat)), (insertOpt a l).Perm (a :: l) := by
  intro l
  induction l with
  | nil => exact List.Perm.refl _
  | cons b bs ih =>
    match a, b with
    | none, b => exact List.Perm.refl _
    | some x, none =>
      exact (ih.cons _).trans (List.Perm.swap _ _ _)
    | some x, some y =>
      by_cases hxy : x ≤ y
      · rw [insertOpt, if_pos hxy]
      · rw [insertOpt, if_neg hxy]
        exact (ih.cons _).trans (List.Perm.swap _ _ _)

theorem sortOpts_perm : ∀ (l : List (Option Nat)), (sortOpts l).Perm l := by
  intro l
  induction l with
  | nil => exact List.Perm.refl _
  | cons a rest ih =>
    exact (insertOpt_perm a (sortOpts rest)).trans (ih.cons a)

theorem insertOpt_pairwise (a : Option Nat) :
    ∀ (l : List (Option Nat)), l.Pairwise optLe →
      (insertOpt a l).Pairwise optLe := by
  intro l
  induction l with
  | nil => intro _; simp [insertOpt]
  | cons b bs ih =>
    intro hp
    rw [List.pairwise_cons] at hp
    have hins : ∀ c ∈ insertOpt a bs, c = a ∨ c ∈ bs := by
      intro c hc
      have := (insertOpt_perm a bs).mem_iff.mp hc
      rcases List.mem_cons.mp this with h | h
      · exact Or.inl h
      · exact Or.inr h
    match a, b with
    | none, b =>
      refine List.Pairwise.cons ?_ (List.Pairwise.cons hp.1 hp.2)
      intro c _
      exact trivial
    | some x, none =>
      rw [insertOpt]
      refine List.Pairwise.cons ?_ (ih hp.2)
      intro c hc
      rcases hins c hc with rfl | h
      · exact trivial
      · exact hp.1 c h
    | some x, some y =>
      by_cases hxy : x ≤ y
      · rw [insertOpt, if_pos hxy]
        refine List.Pairwise.cons ?_ (List.Pairwise.cons hp.1 hp.2)
        intro c hc
        rcases List.mem_cons.mp hc with rfl | h
        · exact hxy
        · have := hp.1 c h
          match c, this with
          | none, ht => exact ht
          | some z, ht => exact Nat.le_trans hxy ht
      · rw [insertOpt, if_neg hxy]
        refine List.Pairwise.cons ?_ (ih hp.2)
        intro c hc
        rcases hins c hc with rfl | h
        · exact Nat.le_of_lt (Nat.lt_of_not_le hxy)
        · exact hp.1 c h

theorem sortOpts_pairwise : ∀ (l : List (Option Nat)), (sortOpts l).Pairwise optLe := by
  intro l
  induction l with
  | nil => exact List.Pairwise.nil
  | cons a rest ih => exact insertOpt_pairwise a (sortOpts rest) ih

theorem sorted_none_head {l : List (Option Nat)} (hp : l.Pairwise optLe)
    (h : none ∈ l) : ∃ tail, l = none :: tail := by
  cases l with
  | nil => cases h
  | cons a tail =>
    match a with
    | none => exact ⟨tail, rfl⟩
    | some x =>
      rw [List.pairwise_cons] at hp
      rcases List.mem_cons.mp h with h' | h'
      · cases h'
      · cases hp.1 none h'

/-! ## Claim C9 -/

/-- C9: a constructed genotype containing at least one no-call compares equal
(in both argument orders) to every genotype of the same length, because the
construction sorts no-calls to the front and the equality predicate returns
`true` at the first no-call. -/
theorem c9_nocall_genotype_eq_all (raw : List GenotypeAllele) (h : Genotype)
    (hnone : none ∈ (Genotype.fromRaw raw).inner)
    (hlen : (Genotype.fromRaw raw).inner.length = h.inner.length) :
    Genotype.eq (Genotype.fromRaw raw) h = true ∧
      Genotype.eq h (Genotype.fromRaw raw) = true := by
  obtain ⟨tail, htail⟩ := sorted_none_head (sortOpts_pairwise _) hnone
  have hgl : (Genotype.fromRaw raw).inner = none :: tail := htail
  cases hh : h.inner with
  | nil =>
    rw [hh] at hlen
    rw [hgl] at hlen
    simp at hlen
  | cons b bs =>
    constructor
    · rw [Genotype.eq, if_neg (fun hne => hne hlen), hgl, hh]
      match b with
      | none => rfl
      | some x => rfl
    · rw [Genotype.eq, if_neg (fun hne => hne (by rw [hlen])), hgl, hh]
      match b with
      | none => rfl
      | some x => rfl

/-- C9 witness: the constructed genotype of raw calls `[no-call, 3]` compares
equal to `[0, 9]` in both orders. -/
theorem c9_nocall_genotype_eq_all_witness :
    Genotype.eq (Genotype.fromRaw [.unphasedMissing, .unphased 3]) ⟨[some 0, some 9]⟩ = true ∧
      Genotype.eq ⟨[some 0, some 9]⟩ (Genotype.fromRaw [.unphasedMissing, .unphased 3]) = true :=
  c9_nocall_genotype_eq_all [.unphasedMissing, .unphased 3] ⟨[some 0, some 9]⟩
    (by decide) (by decide)

/-! ## Claim C10 -/

/-- Two raw allele calls that the `i32 → u8` cast cannot distinguish: same
call kind, and for calls carrying an allele index, indices differing by a
multiple of 256. -/
def sameByte : GenotypeAllele → GenotypeAllele → Prop
  | .unphased i, .unphased j => (256 : Int) ∣ (i - j)
  | .phased i, .phased j => (256 : Int) ∣ (i - j)
  | .unphasedMissing, .unphasedMissing => True
  | .phasedMissing, .phasedMissing => True
  | _, _ => False

theorem allele_to_opt_congr {a b : GenotypeAllele} (h : sameByte a b) :
    allele_to_opt a = allele_to_opt b := by
  match a, b with
  | .unphased i, .unphased j =>
    have hd : (256 : Int) ∣ (i - j) := h
    have : i % 256 = j % 256 :=
      Int.emod_eq_emod_iff_emod_sub_eq_zero.mpr (Int.emod_eq_zero_of_dvd hd)
    simp [allele_to_opt, this]
  | .phased i, .phased j =>
    have hd : (256 : Int) ∣ (i - j) := h
    have : i % 256 = j % 256 :=
      Int.emod_eq_emod_iff_emod_sub_eq_zero.mpr (Int.emod_eq_zero_of_dvd hd)
    simp [allele_to_opt, this]
  | .unphasedMissing, .unphasedMissing => rfl
  | .phasedMissing, .phasedMissing => rfl

/-- C10: genotype construction keeps only the low byte of each allele index
(`as u8`), so raw call lists whose indices agree modulo 256 construct identical
genotypes — and hence drive identical counting. -/
theorem c10_u8_cast_mod256 (raws raws' : List GenotypeAllele)
    (h : List.Forall₂ sameByte raws raws') :
    Genotype.fromRaw raws = Genotype.fromRaw raws' ∧
      (Genotype.fromRaw raws).iterList = (Genotype.fromRaw raws').iterList := by
  have hmap : raws.map allele_to_opt = raws'.map allele_to_opt := by
    induction h with
    | nil => rfl
    | cons ha _ ih => simp [ih, allele_to_opt_congr ha]
  have heq : Genotype.fromRaw raws = Genotype.fromRaw raws' := by
    rw [Genotype.fromRaw, Genotype.fromRaw, hmap]
  exact ⟨heq, by rw [heq]⟩

/-- C10 witness: raw allele indices 0 and 256 produce identical genotypes. -/
theorem c10_u8_cast_mod256_witness :
    Genotype.fromRaw [.unphased 0] = Genotype.fromRaw [.unphased 256] ∧
      (Genotype.fromRaw [.unphased 0]).iterList =
        (Genotype.fromRaw [.unphased 256]).iterList :=
  c10_u8_cast_mod256 [.unphased 0] [.unphased 256]
    (List.Forall₂.cons ⟨-1, by norm_num⟩ List.Forall₂.nil)

/-! ## Claim C6 -/

/-- The alternative-allele loop aborts with `Ignore` as soon as any remaining
alternative is not a single base, discarding the already-collected signatures. -/
theorem collectAlts_ignore (contig : String) (position : Nat) (codon : List Char)
    (rnt : Char) :
    ∀ (l : List (List Char)) (acc : List Signature), (∃ a ∈ l, a.length ≠ 1) →
    collectAlts contig position codon rnt l acc =
      .ignore ("Ignoring non-SNV variant at position " ++ contig ++ ":"
        ++ toString (position + 1)) := by
  intro l
  induction l with
  | nil =>
    intro acc h
    obtain ⟨a, ha, -⟩ := h
    cases ha
  | cons a rest ih =>
    intro acc h
    by_cases hlen : a.length ≠ 1
    · rw [collectAlts, if_pos hlen]
    · rw [collectAlts, if_neg hlen]
      refine ih _ ?_
      obtain ⟨b, hb, hbl⟩ := h
      rcases List.mem_cons.mp hb with rfl | hb'
      · exact absurd hbl hlen
      · exact ⟨b, hb', hbl⟩

/-- C6: once a record reaches the alternative-allele loop (contig resolved,
single-base reference allele, ACGT window whose center matches the reference
allele), any multi-base alternative allele makes `alternative_alleles_from_record`
return the `Ignore` outcome for the entire record — no `Ok` outcome, hence no
signatures at all, also for the record's single-base alternatives. -/
theorem c6_multibase_alt_ignores_record (record : VariantRecord)
    (contigs : List (Nat × String)) (reference : Reference)
    (contig : String) (refA : List Char) (alts : List (List Char))
    (rnt : Char) (codon : List Char)
    (hctg : contigs.lookup record.rid = some contig)
    (halle : record.alleles = refA :: alts)
    (hra : refA.map Char.toUpper = [rnt])
    (hfetch : reference.fetch contig (record.pos : Int) = .ok codon)
    (hacgt : ∀ c ∈ codon, c ∈ bases)
    (hcenter : codon[reference.window_size]? = some rnt)
    (hmb : ∃ a ∈ alts, a.length ≠ 1) :
    alternative_alleles_from_record record contigs reference =
      some (.ignore ("Ignoring non-SNV variant at position " ++ contig ++ ":"
        ++ toString (record.pos + 1))) := by
  have hany : codon.any (fun c => c != 'A' && c != 'C' && c != 'G' && c != 'T') = false := by
    rw [List.any_eq_false]
    intro c hc
    have := hacgt c hc
    fin_cases this <;> decide
  rw [alternative_alleles_from_record, hctg]
  simp only [halle, hra, hfetch, hcenter, hany]
  rw [if_neg (by simp : ¬ ([rnt].length > 1))]
  rw [if_neg (by simp : ¬ (false = true))]
  rw [if_neg (fun hne => hne rfl)]
  rw [collectAlts_ignore contig record.pos codon rnt alts [] hmb]

/-- C6 witness: a record with alternatives `T` and `AT` (the latter
multi-base) is classified `Ignore` although `T` is single-base. -/
theorem c6_multibase_alt_ignores_record_witness :
    (∃ a ∈ [['T'], ['A', 'T']], a.length ≠ 1) ∧
      alternative_alleles_from_record ⟨0, 2, [['C'], ['T'], ['A', 'T']]⟩
          [(0, "1")] ⟨[("1", ['A', 'A', 'C', 'A', 'A'])], 1⟩ =
        some (.ignore ("Ignoring non-SNV variant at position " ++ "1" ++ ":"
          ++ toString (2 + 1))) :=
  ⟨by decide,
    c6_multibase_alt_ignores_record ⟨0, 2, [['C'], ['T'], ['A', 'T']]⟩
      [(0, "1")] ⟨[("1", ['A', 'A', 'C', 'A', 'A'])], 1⟩ "1" ['C'] [['T'], ['A', 'T']]
      'C' ['A', 'C', 'A'] (by decide) rfl (by decide) (by decide) (by decide)
      (by decide) (by decide)⟩

/-! ## Claim C7 -/

/-- C7 (counterexample): for `new(2, 2)` the pair `(v, s) = (0, 2)` lies
outside `[0,2)×[0,2)`, yet `increment` and `get` both succeed — the access is
flattened to offset `0·2+2 = 2` and lands in cell `(1, 0)`. -/
theorem c7_bounds_counterexample :
    ¬ (0 < 2 ∧ 2 < 2) ∧
      ((ResultMatrix.new 2 2).increment 0 2).isSome = true ∧
      (ResultMatrix.new 2 2).get 0 2 = some 0 ∧
      (((ResultMatrix.new 2 2).increment 0 2).map fun m => m.get 1 0) =
        some (some 1) := by
  decide

/-- C7 (amended): `increment` and `get` on `new(N, S)` fail exactly when the
flattened offset `v·S + s` falls outside the `N·S`-cell buffer; offsets inside
the buffer are accessed even when `s ≥ S`, aliasing a different cell. -/
theorem c7_bounds_amended (N S v s : Nat) :
    ((ResultMatrix.new N S).increment v s = none ↔ N * S ≤ v * S + s) ∧
      ((ResultMatrix.new N S).get v s = none ↔ N * S ≤ v * S + s) := by
  have hlen : (ResultMatrix.new N S).inner.length = N * S := by
    simp [ResultMatrix.new]
  have hidx : (ResultMatrix.new N S).index v s = v * S + s := rfl
  constructor
  · rw [ResultMatrix.increment]
    by_cases hc : (ResultMatrix.new N S).index v s < (ResultMatrix.new N S).inner.length
    · rw [if_pos hc]
      rw [hidx, hlen] at hc
      simp [Nat.not_le.mpr hc]
    · rw [if_neg hc]
      rw [hidx, hlen] at hc
      simp [Nat.not_lt.mp hc]
  · rw [ResultMatrix.get]
    rw [List.getElem?_eq_none_iff, hlen, hidx]

/-! ## Claim C8 -/

/-- C8 (counterexample): with window 1 over the 6-base contig `1`, fetching
position 5 asks for bases 4..6; the right edge is clamped and `fetch` returns
`Ok "GA"` (length 2, not `2w+1 = 3`) instead of failing. This mirrors the
source's own test `test_triplet_end_of_chromosome`. -/
theorem c8_fetch_counterexample :
    Reference.fetch ⟨[("1", ['T', 'A', 'C', 'A', 'G', 'A'])], 1⟩ "1" 5 =
        .ok ['G', 'A'] ∧ (['G', 'A'] : List Char).length ≠ 2 * 1 + 1 := by
  decide

/-- C8 (amended): `fetch` fails only when the window extends past the start
(`position < window`); within the sequence it returns the uppercased slice
`[position-w, min(position+w, len-1)]`, of length `2w+1` only when the right
edge also fits, and of a shorter, clamped length otherwise. -/
theorem c8_fetch_amended (seqs : List (String × List Char)) (name : String)
    (seq : List Char) (w pos : Nat) (q : Int)
    (hlook : seqs.lookup name = some seq)
    (hw : w ≤ pos) (hpos : pos < seq.length) (hq : q < (w : Int)) :
    Reference.fetch ⟨seqs, w⟩ name (pos : Int) =
        .ok (((seq.drop (pos - w)).take
          (min (pos + w) (seq.length - 1) + 1 - (pos - w))).map Char.toUpper) ∧
      (pos + w < seq.length →
        ((seq.drop (pos - w)).take
          (min (pos + w) (seq.length - 1) + 1 - (pos - w))).length = 2 * w + 1) ∧
      Reference.fetch ⟨seqs, w⟩ name q = .err := by
  refine ⟨?_, ?_, ?_⟩
  · have hfss : fetch_seq_string seqs name (pos - w) (pos + w) =
        some ((seq.drop (pos - w)).take
          (min (pos + w) (seq.length - 1) + 1 - (pos - w))) := by
      simp only [fetch_seq_string, hlook]
      rw [if_pos (by omega)]
    rw [Reference.fetch,
      if_neg (by show ¬ ((w : Int) > (pos : Int)); omega)]
    have h1 : ((pos : Int) - ((w : Nat) : Int)).toNat = pos - w := by omega
    have h2 : ((pos : Int) + ((w : Nat) : Int)).toNat = pos + w := by omega
    dsimp only
    rw [h1, h2, hfss]
  · intro hfit
    rw [List.length_take, List.length_drop]
    omega
  · rw [Reference.fetch, if_pos (by show (w : Int) > q; omega)]

/-- C8 witness: window 1, position 2 on the 6-base contig returns the full
3-base window `ACA` uppercased, and position `0 < window` fails. -/
theorem c8_fetch_amended_witness :
    (Reference.fetch ⟨[("1", ['t', 'a', 'c', 'a', 'g', 'a'])], 1⟩ "1" ((2 : Nat) : Int) =
        .ok ((((['t', 'a', 'c', 'a', 'g', 'a'] : List Char).drop (2 - 1)).take
          (min (2 + 1) (([ 't', 'a', 'c', 'a', 'g', 'a'] : List Char).length - 1) + 1 -
            (2 - 1))).map Char.toUpper) ∧
      (2 + 1 < (['t', 'a', 'c', 'a', 'g', 'a'] : List Char).length →
        ((((['t', 'a', 'c', 'a', 'g', 'a'] : List Char)).drop (2 - 1)).take
          (min (2 + 1) ((['t', 'a', 'c', 'a', 'g', 'a'] : List Char).length - 1) + 1 -
            (2 - 1))).length = 2 * 1 + 1) ∧
      Reference.fetch ⟨[("1", ['t', 'a', 'c', 'a', 'g', 'a'])], 1⟩ "1" 0 = .err) :=
  c8_fetch_amended [("1", ['t', 'a', 'c', 'a', 'g', 'a'])] "1"
    ['t', 'a', 'c', 'a', 'g', 'a'] 1 2 0 rfl (by decide) (by decide) (by decide)

end Mutsig
